import Mathlib

/-!
# trufflehog: the appointedd detector and the permissions generator

A shallow embedding of

* `pkg/detectors/appointedd/appointedd.go` (`keyPat`, `Scanner.Keywords`,
  `Scanner.FromData`), and
* `pkg/analyzer/generate_permissions/generate_permissions.go` (`templateText`,
  `ToCamelCase`, `inc`),

followed by the properties proved about them.

Byte strings are lists of naturals below 256.  A natural of 256 or more is not
a byte; the decoder treats it like any other invalid byte, so every statement
below that ranges over all lists covers all byte buffers.
-/

set_option autoImplicit false

namespace Appointedd

/-! ## Go strings: UTF-8 decoding (`unicode/utf8`) -/

/-- A Go string or byte slice. -/
abbrev Bytes := List Nat

/-- The bytes of an ASCII literal. -/
def ascii (s : String) : Bytes := s.data.map Char.toNat

/-- `utf8.RuneError`. -/
def RuneError : Nat := 0xFFFD

/-- The table `utf8.first` with `utf8.acceptRanges`, for a leading byte of a
multi-byte sequence: the size of the sequence and the range the second byte
must lie in.  ASCII and invalid leading bytes give `none`. -/
def first (b : Nat) : Option (Nat × Nat × Nat) :=
  if 0xC2 ≤ b ∧ b ≤ 0xDF then some (2, 0x80, 0xBF)
  else if b = 0xE0 then some (3, 0xA0, 0xBF)
  else if 0xE1 ≤ b ∧ b ≤ 0xEC then some (3, 0x80, 0xBF)
  else if b = 0xED then some (3, 0x80, 0x9F)
  else if 0xEE ≤ b ∧ b ≤ 0xEF then some (3, 0x80, 0xBF)
  else if b = 0xF0 then some (4, 0x90, 0xBF)
  else if 0xF1 ≤ b ∧ b ≤ 0xF3 then some (4, 0x80, 0xBF)
  else if b = 0xF4 then some (4, 0x80, 0x8F)
  else none

/-- `utf8.DecodeRuneInString`: the first code point of `s` and its width in
bytes; `(RuneError, 1)` on an invalid or truncated encoding, `(RuneError, 0)`
on the empty string. -/
def DecodeRuneInString : Bytes → Nat × Nat
  | [] => (RuneError, 0)
  | s0 :: t =>
    if s0 < 0x80 then (s0, 1)
    else match first s0 with
      | none => (RuneError, 1)
      | some (sz, lo, hi) =>
        match t with
        | [] => (RuneError, 1)
        | s1 :: t1 =>
          if s1 < lo ∨ hi < s1 then (RuneError, 1)
          else if sz ≤ 2 then ((s0 % 32) * 64 + s1 % 64, 2)
          else match t1 with
            | [] => (RuneError, 1)
            | s2 :: t2 =>
              if s2 < 0x80 ∨ 0xBF < s2 then (RuneError, 1)
              else if sz ≤ 3 then ((s0 % 16) * 4096 + (s1 % 64) * 64 + s2 % 64, 3)
              else match t2 with
                | [] => (RuneError, 1)
                | s3 :: _ =>
                  if s3 < 0x80 ∨ 0xBF < s3 then (RuneError, 1)
                  else ((s0 % 8) * 262144 + (s1 % 64) * 4096 + (s2 % 64) * 64 + s3 % 64, 4)

/-- A decoded code point together with the bytes it was decoded from. -/
structure Rune where
  r : Nat
  bytes : Bytes
  deriving DecidableEq, Repr

/-- Decoding of a whole string, left to right; `skip` counts the bytes that
still belong to the code point decoded last. -/
def decodeAux : Nat → Bytes → List Rune
  | _, [] => []
  | 0, b :: t =>
    let d := DecodeRuneInString (b :: t)
    ⟨d.1, (b :: t).take d.2⟩ :: decodeAux (d.2 - 1) t
  | k + 1, _ :: t => decodeAux k t

/-- The code points of a string, as the regexp engine steps through them. -/
def runes (s : Bytes) : List Rune := decodeAux 0 s

/-- The bytes spanned by a run of code points. -/
def bytesOf (rs : List Rune) : Bytes := (rs.map Rune.bytes).flatten

/-! ## Go `regexp`: leftmost-first matching with submatches -/

/-- Regular expressions, as far as `keyPat` needs them. -/
inductive Regex where
  | empty
  | cls (p : Nat → Bool)
  | seq (a b : Regex)
  | alt (a b : Regex)
  | rep (r : Regex) (min max : Nat) (greedy : Bool)
  | wordBoundary
  | capture (idx : Nat) (r : Regex)

/-- `Regexp.NumSubexp`: the number of capturing groups. -/
def Regex.numSubexp : Regex → Nat
  | .empty => 0
  | .cls _ => 0
  | .seq a b => max a.numSubexp b.numSubexp
  | .alt a b => max a.numSubexp b.numSubexp
  | .rep r _ _ _ => r.numSubexp
  | .wordBoundary => 0
  | .capture idx r => max idx r.numSubexp

/-- The state of a match in progress. -/
structure St where
  prev : Option Nat
  rest : List Rune
  caps : List (Nat × List Rune)

/-- ASCII word characters, the ones `\b` looks at. -/
def isWordChar (r : Nat) : Bool :=
  (65 ≤ r ∧ r ≤ 90) ∨ (97 ≤ r ∧ r ≤ 122) ∨ (48 ≤ r ∧ r ≤ 57) ∨ r = 95

/-- Whether the code point on one side of a position is a word character;
the start and the end of the text are not. -/
def wordSide : Option Nat → Bool
  | none => false
  | some r => isWordChar r

/-- The code points consumed between two suffixes of the same text. -/
def consumed (a b : List Rune) : List Rune := a.take (a.length - b.length)

/-- Bounded repetition `x{min,max}`: `min` copies of `x`, then up to
`max - min` optional ones, tried longest first when greedy. -/
def repRun (step : St → (St → Option St) → Option St) (greedy : Bool) :
    Nat → Nat → St → (St → Option St) → Option St
  | 0, 0, st, k => k st
  | _ + 1, 0, _, _ => none
  | 0, hi + 1, st, k =>
    if greedy then
      (step st (fun st1 => repRun step greedy 0 hi st1 k)).orElse (fun _ => k st)
    else
      (k st).orElse (fun _ => step st (fun st1 => repRun step greedy 0 hi st1 k))
  | lo + 1, hi + 1, st, k => step st (fun st1 => repRun step greedy lo hi st1 k)

/-- Backtracking match of `re` at the current position; `k` is what remains to
be matched.  Alternatives are tried in order, which is the preference order of
Go's leftmost-first semantics. -/
def Regex.run : Regex → St → (St → Option St) → Option St
  | .empty, st, k => k st
  | .cls p, st, k =>
    match st.rest with
    | [] => none
    | x :: t => if p x.r then k ⟨some x.r, t, st.caps⟩ else none
  | .seq a b, st, k => a.run st (fun st1 => b.run st1 k)
  | .alt a b, st, k => (a.run st k).orElse (fun _ => b.run st k)
  | .rep r lo hi greedy, st, k => repRun (fun s c => r.run s c) greedy lo hi st k
  | .wordBoundary, st, k =>
    if wordSide st.prev != wordSide (st.rest.head?.map Rune.r) then k st else none
  | .capture idx r, st, k =>
    r.run st (fun st1 => k ⟨st1.prev, st1.rest, (idx, consumed st.rest st1.rest) :: st1.caps⟩)

/-- A match of `re` that starts exactly at the position before `s`. -/
def matchAt (re : Regex) (prev : Option Nat) (s : List Rune) : Option St :=
  re.run ⟨prev, s, []⟩ some

/-- What `FindStringSubmatch` returns for one match: the text of the whole
match, then the text of each capturing group (empty when the group did not
take part). -/
def submatch (re : Regex) (s : List Rune) (b : St) : List Bytes :=
  bytesOf (consumed s b.rest) ::
    (List.range re.numSubexp).map (fun i =>
      match b.caps.lookup (i + 1) with
      | some c => bytesOf c
      | none => [])

/-- The loop of `Regexp.allMatches`, position by position.  `skip` is the number
of code points still covered by the match delivered last, `afterMatch` says
that the match delivered last ended exactly here (an empty match is not
accepted there). -/
def allMatches (re : Regex) : Option Nat → Nat → Bool → List Rune → List (List Bytes)
  | prev, _, afterMatch, [] =>
    match matchAt re prev [] with
    | some b => if afterMatch then [] else [submatch re [] b]
    | none => []
  | _, skip + 1, _, x :: t => allMatches re (some x.r) skip (skip == 0) t
  | prev, 0, afterMatch, x :: t =>
    match matchAt re prev (x :: t) with
    | none => allMatches re (some x.r) 0 false t
    | some b =>
      let n := (x :: t).length - b.rest.length
      if n = 0 then
        if afterMatch then allMatches re (some x.r) 0 false t
        else submatch re (x :: t) b :: allMatches re (some x.r) 0 false t
      else submatch re (x :: t) b :: allMatches re (some x.r) (n - 1) (n == 1) t

/-- `re.FindAllStringSubmatch(s, -1)`. -/
def FindAllStringSubmatch (re : Regex) (s : Bytes) : List (List Bytes) :=
  allMatches re none 0 false (runes s)

/-! ## Go `strings`: `TrimSpace` and `Contains` -/

/-- The table `asciiSpace` of package `strings`. -/
def asciiSpace (c : Nat) : Bool :=
  c = 9 ∨ c = 10 ∨ c = 11 ∨ c = 12 ∨ c = 13 ∨ c = 32

/-- `unicode.IsSpace`. -/
def IsSpace (r : Nat) : Bool :=
  if r ≤ 0xFF then
    r = 9 ∨ r = 10 ∨ r = 11 ∨ r = 12 ∨ r = 13 ∨ r = 32 ∨ r = 0x85 ∨ r = 0xA0
  else
    r = 0x1680 ∨ (0x2000 ≤ r ∧ r ≤ 0x200A) ∨ r = 0x2028 ∨ r = 0x2029 ∨
      r = 0x202F ∨ r = 0x205F ∨ r = 0x3000

/-- `utf8.RuneStart`: the byte is not a continuation byte. -/
def RuneStart (b : Nat) : Bool := ¬ (0x80 ≤ b ∧ b ≤ 0xBF)

/-- `utf8.DecodeLastRuneInString`, on the reversed string `rev`. -/
def DecodeLastRuneInString (rev : Bytes) : Nat × Nat :=
  match rev with
  | [] => (RuneError, 0)
  | r :: _ =>
    if r < 0x80 then (r, 1)
    else
      let k : Nat :=
        if RuneStart (rev.getD 1 0) ∧ 2 ≤ rev.length then 2
        else if RuneStart (rev.getD 2 0) ∧ 3 ≤ rev.length then 3
        else if RuneStart (rev.getD 3 0) ∧ 4 ≤ rev.length then 4
        else min 5 rev.length
      let d := DecodeRuneInString (rev.take k).reverse
      if d.2 ≠ k then (RuneError, 1) else d

/-- `strings.TrimLeftFunc(s, unicode.IsSpace)`. -/
def TrimLeftSpace (s : Bytes) : Bytes :=
  bytesOf ((runes s).dropWhile (fun x => IsSpace x.r))

/-- The loop of `lastIndexFunc(s, unicode.IsSpace, false)`, on the reversed
string: what is left of `rev` before the last code point that is not white
space, `none` when the string is white space throughout.  `skip` counts the
bytes that still belong to the code point decoded last. -/
def lastNonSpace : Nat → Bytes → Option Bytes
  | _, [] => none
  | 0, r :: t =>
    let d := DecodeLastRuneInString (r :: t)
    if IsSpace d.1 then lastNonSpace (d.2 - 1) t else some ((r :: t).drop d.2)
  | k + 1, _ :: t => lastNonSpace k t

/-- `strings.TrimRightFunc(s, unicode.IsSpace)`. -/
def TrimRightSpace (s : Bytes) : Bytes :=
  match lastNonSpace 0 s.reverse with
  | none => []
  | some before =>
    let i := before.length
    if 0x80 ≤ s.getD i 0 then s.take (i + (DecodeRuneInString (s.drop i)).2)
    else s.take (i + 1)

/-- One of the two ASCII loops of `strings.TrimSpace`: the string without its
leading ASCII white space, and whether a byte of 0x80 or more stopped the
loop. -/
def trimASCII : Bytes → Bytes × Bool
  | [] => ([], false)
  | c :: t =>
    if 0x80 ≤ c then (c :: t, true)
    else if asciiSpace c then trimASCII t
    else (c :: t, false)

/-- `strings.TrimSpace`. -/
def TrimSpace (s : Bytes) : Bytes :=
  let a := trimASCII s
  if a.2 then TrimRightSpace (TrimLeftSpace a.1)
  else
    let b := trimASCII a.1.reverse
    if b.2 then TrimRightSpace b.1.reverse else b.1.reverse

/-- `strings.Contains`. -/
def Contains (s sub : Bytes) : Bool := decide (sub <:+: s)

/-! ## The detector -/

/-- `[a-zA-Z0-9=+]`. -/
def tokenClass (r : Nat) : Bool :=
  (97 ≤ r ∧ r ≤ 122) ∨ (65 ≤ r ∧ r ≤ 90) ∨ (48 ≤ r ∧ r ≤ 57) ∨ r = 61 ∨ r = 43

/-- The code points an ASCII literal `c` matches under the flag `i`: itself, its
other case, and the two code points Unicode folds to an ASCII letter
(U+212A to `k`, U+017F to `s`). -/
def foldEq (c r : Nat) : Bool :=
  r = c ∨ (97 ≤ c ∧ c ≤ 122 ∧ r + 32 = c) ∨ (65 ≤ c ∧ c ≤ 90 ∧ r = c + 32) ∨
    ((c = 107 ∨ c = 75) ∧ r = 0x212A) ∨ ((c = 115 ∨ c = 83) ∧ r = 0x17F)

/-- A literal, compared without regard to case. -/
def litFold : Bytes → Regex
  | [] => .empty
  | c :: t => .seq (.cls (foldEq c)) (litFold t)

/-- `(?:a|b|...)`. -/
def alts : List Regex → Regex
  | [] => .empty
  | [a] => a
  | a :: b :: t => .alt a (alts (b :: t))

/-- `(?:.|[\n\r])`: any code point. -/
def anyRune : Regex := .alt (.cls (fun r => r != 10)) (.cls (fun r => r = 10 ∨ r = 13))

/-- The code points that fold to the same letter as `r`, as far as one of them
is ASCII: the other case of an ASCII letter, U+212A with `k` and `K`, U+017F
with `s` and `S`. -/
def foldOrbit (r : Nat) : List Nat :=
  if r = 0x212A then [107, 75]
  else if r = 0x17F then [115, 83]
  else if 97 ≤ r ∧ r ≤ 122 then
    (r - 32) :: (if r = 107 then [0x212A] else if r = 115 then [0x17F] else [])
  else if 65 ≤ r ∧ r ≤ 90 then
    (r + 32) :: (if r = 75 then [0x212A] else if r = 83 then [0x17F] else [])
  else []

/-- A class of ASCII code points as it is compiled: as written, or, when the
flag `i` is in force, with every code point that folds to one of its
members. -/
def classUnder (foldCase : Bool) (p : Nat → Bool) (r : Nat) : Bool :=
  p r || (foldCase && (foldOrbit r).any p)

/-- A pattern string that something is still to be appended to: the tree of
what is written so far, and whether the flag `i` is in force at its end. -/
structure Fragment where
  re : Regex
  foldCase : Bool

/-- Modelled from the spec: `detectors.PrefixRegex` is not among the sources.
The glossary describes the prefix context as required surrounding text (the
provider name) that must appear near a token.  The model is one of the
keywords, compared without regard to case, followed by at most `near` arbitrary
code points; how near, and whether the gap is taken greedily, is left open by
the spec and is a parameter here.  The fragment has no capturing group.  The
keywords are compared without regard to case through the flag `i`, set at the
head of the string and closed nowhere: it is still in force for what the
caller appends. -/
def PrefixRegex (near : Nat) (greedy : Bool) (keywords : List Bytes) : Fragment :=
  ⟨.seq (alts (keywords.map litFold)) (.rep anyRune 0 near greedy), true⟩

/-- `Scanner.Keywords`. -/
def Keywords : List Bytes := [ascii "appointedd"]

/-- The pattern `keyPat`: the string of `PrefixRegex`, with
`\b([a-zA-Z0-9=+]{88})` appended, compiled as one pattern.  The class is
compiled under the flags the prefix leaves in force. -/
def keyPat (near : Nat) (greedy : Bool) : Regex :=
  .seq (PrefixRegex near greedy [ascii "appointedd"]).re
    (.seq .wordBoundary
      (.capture 1
        (.rep (.cls (classUnder (PrefixRegex near greedy [ascii "appointedd"]).foldCase
          tokenClass)) 88 88 true)))

/-- `detectorspb.DetectorType`, as far as this detector uses it. -/
inductive DetectorType where
  | Appointedd
  | Other (id : Nat)
  deriving DecidableEq, Repr

/-- Modelled from the spec: the type `detectors.Result` is not among the
sources.  Section 3: detector identity, raw candidate bytes, a `verified`
boolean plus an optional verification error, and optional structured
metadata. -/
structure Result where
  DetectorType : DetectorType
  Raw : Bytes
  Verified : Bool := false
  VerificationError : Option String := none
  ExtraData : Option (List (String × String)) := none
  deriving DecidableEq, Repr

/-- Modelled from the spec: the verdicts of section 3.  The last one is the
verdict of a candidate that is suppressed, which has no Result. -/
inductive Verdict where
  | Verified
  | NotVerified
  | VerificationError
  | SkippedAsFalsePositive
  deriving DecidableEq, Repr

/-- Modelled from the spec: the verdict a Result carries, section 3: its
`verified` boolean, else its optional verification error. -/
def Result.verdict (r : Result) : Verdict :=
  if r.Verified then .Verified
  else if r.VerificationError.isSome then .VerificationError
  else .NotVerified

/-- How the HTTP exchange for one key ends. -/
inductive Exchange where
  | requestError
  | transportError (err : String)
  | readError (err : String)
  | body (b : Bytes)
  deriving DecidableEq, Repr

/-- What the detector does to the outside while it scans. -/
inductive Event where
  | httpDo (key : Bytes)
  | screen (candidate : Bytes)
  deriving DecidableEq, Repr

/-- The collaborators of `FromData` that are not among the sources.
`near` and `greedy` are the open parameters of `PrefixRegex`; `exchange key` is
the outcome of `http.NewRequestWithContext`, `client.Do` and `ioutil.ReadAll`
for the request that carries `key` in `X-API-KEY`; `IsKnownFalsePositive c` is
`detectors.IsKnownFalsePositive(c, detectors.DefaultFalsePositives, true)`. -/
structure Env where
  near : Nat
  greedy : Bool
  exchange : Bytes → Exchange
  IsKnownFalsePositive : Bytes → Bool

/-- The candidate of a match: `strings.TrimSpace(match[1])`. -/
def candidate (m : List Bytes) : Bytes := TrimSpace (m.getD 1 [])

/-- The loop body of `FromData` from the construction of `s1` on, for the
trimmed match `resMatch`: the Result appended, if any (`none` where the source
says `continue`), and the events of the iteration. -/
def process (env : Env) (verify : Bool) (resMatch : Bytes) : Option Result × List Event :=
  let s1 : Result := { DetectorType := .Appointedd, Raw := resMatch }
  if verify then
    match env.exchange resMatch with
    | .requestError => (none, [])
    | .transportError _ => (some s1, [.httpDo resMatch])
    | .readError _ => (none, [.httpDo resMatch])
    | .body b =>
      if Contains b (ascii "total") then
        (some { s1 with Verified := true }, [.httpDo resMatch])
      else if env.IsKnownFalsePositive resMatch then
        (none, [.httpDo resMatch, .screen resMatch])
      else (some s1, [.httpDo resMatch, .screen resMatch])
  else (some s1, [])

/-- One iteration of the loop of `FromData`, for the match `m`. -/
def loopBody (env : Env) (verify : Bool) (m : List Bytes) : Option Result × List Event :=
  if m.length ≠ 2 then (none, [])
  else process env verify (candidate m)

/-- The slice `results` when the loop of `FromData` is over. -/
def loopResults (env : Env) (verify : Bool) (ms : List (List Bytes)) : List Result :=
  ms.filterMap (fun m => (loopBody env verify m).1)

/-- Modelled from the spec: the loop of `detectors.CleanResults`, a
first-occurrence deduplication, `seen` being the raw values kept so far. -/
def cleanAux : List Bytes → List Result → List Result
  | _, [] => []
  | seen, r :: rs =>
    if r.Raw ∈ seen then cleanAux seen rs else r :: cleanAux (r.Raw :: seen) rs

/-- Modelled from the spec: `detectors.CleanResults` is not among the sources.
Section 4.4: given the ordered list of Results of one buffer, collapse
duplicates, Results being equal if their raw candidate bytes are equal,
preserving the first occurrence. -/
def CleanResults (results : List Result) : List Result := cleanAux [] results

/-- `Scanner.FromData`: the Results returned (the error returned is always
nil). -/
def FromData (env : Env) (verify : Bool) (data : Bytes) : List Result :=
  CleanResults (loopResults env verify (FindAllStringSubmatch (keyPat env.near env.greedy) data))

/-- The events of `Scanner.FromData`, in order. -/
def FromDataEvents (env : Env) (verify : Bool) (data : Bytes) : List Event :=
  ((FindAllStringSubmatch (keyPat env.near env.greedy) data).map
    (fun m => (loopBody env verify m).2)).flatten


/-- ASCII lower case of a byte, for comparing without regard to case. -/
def lowerASCII (b : Nat) : Nat := if 65 ≤ b ∧ b ≤ 90 then b + 32 else b

/-- The buffer contains the keyword, compared without regard to case. -/
def containsFold (data kw : Bytes) : Prop := kw.map lowerASCII <:+: data.map lowerASCII

instance (data kw : Bytes) : Decidable (containsFold data kw) := by
  unfold containsFold; infer_instance

/-- The bytes of one code point of a token: a byte of `[a-zA-Z0-9=+]`, or the
UTF-8 encoding of U+017F or of U+212A. -/
def isTokenPiece (p : Bytes) : Bool :=
  (match p with
    | [b] => tokenClass b
    | _ => false) || p = [0xC5, 0xBF] || p = [0xE2, 0x84, 0xAA]

/-- A decoded code point that can stand in a token, with its encoding. -/
def TokenRune (x : Rune) : Prop :=
  (tokenClass x.r = true ∧ x.bytes = [x.r]) ∨ x = ⟨0x17F, [0xC5, 0xBF]⟩ ∨
    x = ⟨0x212A, [0xE2, 0x84, 0xAA]⟩

/-- The candidates extracted from a buffer, in order. -/
def candidates (env : Env) (data : Bytes) : List Bytes :=
  (FindAllStringSubmatch (keyPat env.near env.greedy) data).map candidate


/-! ## Sample inputs -/

/-- A token of the shape the pattern asks for; it holds the word `example`. -/
def sampleToken : Bytes := ascii "example" ++ List.replicate 80 48 ++ [61]

/-- A buffer with the provider name in upper case, a short gap and the
sample token. -/
def sampleBuffer : Bytes := ascii "APPOINTEDD_API_KEY = " ++ sampleToken ++ [10]

/-- A second token, different from the sample token. -/
def otherToken : Bytes := ascii "Zm9v" ++ List.replicate 84 49

/-- A token that ends in the Kelvin sign U+212A, three bytes in UTF-8. -/
def kelvinToken : Bytes := List.replicate 87 97 ++ [0xE2, 0x84, 0xAA]

/-- A buffer with the provider name and the token that ends in the Kelvin
sign. -/
def kelvinBuffer : Bytes := ascii "appointedd " ++ kelvinToken

/-- A token that starts with the long s U+017F, two bytes in UTF-8. -/
def longSToken : Bytes := [0xC5, 0xBF] ++ List.replicate 87 97

/-- A buffer with the provider name and, right after it, the token that
starts with the long s. -/
def longSBuffer : Bytes := ascii "appointedd" ++ longSToken

/-- The Result the loop builds for the sample token when it is not verified. -/
def sampleResult : Result := { DetectorType := .Appointedd, Raw := sampleToken }

/-- A false-positive screen that flags what holds the word `example`. -/
def screenExample (c : Bytes) : Bool := Contains (c.map lowerASCII) (ascii "example")

/-- The endpoint cannot be reached. -/
def envRefused : Env := ⟨40, true, fun _ => .transportError "connection refused", screenExample⟩

/-- The endpoint answers and the body cannot be read. -/
def envReadFail : Env := ⟨40, true, fun _ => .readError "unexpected EOF", screenExample⟩

/-- The endpoint answers with the success marker. -/
def envLive : Env := ⟨40, true, fun _ => .body (ascii "total: 3"), screenExample⟩

/-- The endpoint answers without the success marker, and nothing is screened. -/
def envDenied : Env := ⟨40, true, fun _ => .body (ascii "unauthorized"), fun _ => false⟩


/-! ## What a successful match says about the text -/

/-- The relation `n` times in a row. -/
def iter (D : St → St → Prop) : Nat → St → St → Prop
  | 0, a, b => a = b
  | n + 1, a, b => ∃ m, D a m ∧ iter D n m b

/-- The states `b` a match of `re` started in `a` can end in. -/
def Den : Regex → St → St → Prop
  | .empty, a, b => a = b
  | .cls p, a, b => ∃ x t, a.rest = x :: t ∧ p x.r = true ∧ b = ⟨some x.r, t, a.caps⟩
  | .seq r1 r2, a, b => ∃ m, Den r1 a m ∧ Den r2 m b
  | .alt r1 r2, a, b => Den r1 a b ∨ Den r2 a b
  | .rep r lo hi _, a, b => ∃ n, lo ≤ n ∧ n ≤ hi ∧ iter (Den r) n a b
  | .wordBoundary, a, b =>
    a = b ∧ wordSide a.prev ≠ wordSide (a.rest.head?.map Rune.r)
  | .capture idx r, a, b =>
    ∃ m, Den r a m ∧ b = ⟨m.prev, m.rest, (idx, consumed a.rest m.rest) :: m.caps⟩

end Appointedd

namespace Permissions

/-! ## The permissions generator -/

/-- The data decoded from the YAML file. -/
structure PermissionsData where
  Permissions : List String
  PackageName : String

/-- The function `strings.Split(s, sep)` for a one-character separator. -/
def splitOn (sep : Char) : List Char → List (List Char)
  | [] => [[]]
  | c :: t =>
    if c = sep then [] :: splitOn sep t
    else match splitOn sep t with
      | [] => [[c]]
      | h :: r => (c :: h) :: r

/-- The class `[\_\.\-]`. -/
def isSeparator (c : Char) : Bool := c = Char.ofNat 95 ∨ c = Char.ofNat 46 ∨ c = Char.ofNat 45

/-- The call `regexp.MustCompile("[\_\.\-]+").Split(s, -1)`: the pieces of `s`
between the maximal runs of separators, an empty piece before a leading run
and after a trailing one.  `inRun` says that the character before was a
separator. -/
def splitRuns : Bool → List Char → List (List Char)
  | _, [] => [[]]
  | inRun, c :: t =>
    if isSeparator c then
      if inRun then splitRuns true t else [] :: splitRuns true t
    else match splitRuns false t with
      | [] => [[c]]
      | h :: r => (c :: h) :: r

/-- `ToCamelCase`: split at `:`, split each part at runs of `_`, `.` and `-`,
title-case every piece and join them all.  `title` is the caser
`cases.Title(language.English)` of `golang.org/x/text`, a library outside
the repository. -/
def ToCamelCase (title : String → String) (s : String) : String :=
  String.join ((splitOn (Char.ofNat 58) s.data).map (fun part =>
    String.join ((splitRuns false part).map (fun sub => title (String.mk sub)))))

/-- The template function `inc`. -/
def inc (i : Nat) : Nat := i + 1

/-- What `templateText` expands to, as far as it depends on the data: the
name in the package clause, the identifiers of the `const` block in order
(each one `Permission = iota`), and the entries of the four map literals,
identifiers by name and string literals by the text between their quotes. -/
structure Generated where
  package : String
  consts : List String
  PermissionStrings : List (String × String)
  StringToPermission : List (String × String)
  PermissionIDs : List (String × Nat)
  IdToPermission : List (Nat × String)
  deriving DecidableEq, Repr

/-- Execution of `templateText` on the data: `Invalid` first, then one entry
per permission in each `range`, `$index` counting from 0. -/
def generate (title : String → String) (data : PermissionsData) : Generated :=
  let ps := data.Permissions.enum
  { package := data.PackageName
    consts := "Invalid" :: ps.map (fun ip => ToCamelCase title ip.2)
    PermissionStrings := ps.map (fun ip => (ToCamelCase title ip.2, ip.2))
    StringToPermission := ps.map (fun ip => (ip.2, ToCamelCase title ip.2))
    PermissionIDs := ps.map (fun ip => (ToCamelCase title ip.2, inc ip.1))
    IdToPermission := ps.map (fun ip => (inc ip.1, ToCamelCase title ip.2)) }

/-! ### What the generated file means as Go -/

/-- The identifiers the template declares or uses on its own, besides
`Invalid`: a generated constant of one of these names is a redeclaration, or
hides a name the rest of the file needs. -/
def templateNames : List String :=
  ["Permission", "PermissionStrings", "StringToPermission", "PermissionIDs",
   "IdToPermission", "PermissionFromString", "PermissionFromID",
   "errors", "error", "string", "int", "iota", "nil"]

/-- The keywords of Go. -/
def keywords : List String :=
  ["break", "case", "chan", "const", "continue", "default", "defer", "else",
   "fallthrough", "for", "func", "go", "goto", "if", "import", "interface", "map",
   "package", "range", "return", "select", "struct", "switch", "type", "var"]

/-- A Go identifier that can name a constant and be referred to: a letter or
underscore, then letters, digits and underscores; not a keyword, not the blank
identifier.  Only ASCII letters are recognised here. -/
def isIdentifier (s : String) : Bool :=
  match s.data with
  | [] => false
  | c :: t =>
    (c.isAlpha ∨ c = Char.ofNat 95) ∧ t.all (fun d => d.isAlphanum ∨ d = Char.ofNat 95) ∧
      s ≠ "_" ∧ s ∉ keywords

/-- The text stands for itself between double quotes: no double quote, no
backslash, no line break, and neither of the two characters a Go source file
may not hold (NUL and the byte order mark). -/
def isPlainLiteral (s : String) : Bool :=
  s.data.all (fun c => c ≠ Char.ofNat 34 ∧ c ≠ Char.ofNat 92 ∧ c ≠ Char.ofNat 10 ∧
    c ≠ Char.ofNat 0 ∧ c ≠ Char.ofNat 0xFEFF)

/-- The value of a constant of the `const` block: `iota` is the index of its
ConstSpec. -/
def constEnv (g : Generated) : List (String × Nat) :=
  g.consts.enum.map (fun iv => (iv.2, iv.1))

/-- The value an identifier of a map literal stands for. -/
def resolve (g : Generated) (name : String) : Nat :=
  ((constEnv g).lookup name).getD 0

/-- The four maps of the compiled package, as association lists; a
`Permission` is its integer value. -/
structure Tables where
  PermissionStrings : List (Nat × String)
  StringToPermission : List (String × Nat)
  PermissionIDs : List (Nat × Nat)
  IdToPermission : List (Nat × Nat)
  deriving DecidableEq, Repr

/-- The maps the literals denote. -/
def tablesOf (g : Generated) : Tables :=
  { PermissionStrings := g.PermissionStrings.map (fun kv => (resolve g kv.1, kv.2))
    StringToPermission := g.StringToPermission.map (fun kv => (kv.1, resolve g kv.2))
    PermissionIDs := g.PermissionIDs.map (fun kv => (resolve g kv.1, kv.2))
    IdToPermission := g.IdToPermission.map (fun kv => (kv.1, resolve g kv.2)) }

/-- The generated file compiles: the package name and every constant are
identifiers, no name is declared twice or hides a name the template uses, the
map literals refer to declared constants, their string literals are plain, and
no map literal has the same constant key twice. -/
def compiles (g : Generated) : Bool :=
  decide (isIdentifier g.package = true ∧
    (templateNames ++ g.consts).Nodup ∧
    (∀ n ∈ g.consts, isIdentifier n = true) ∧
    (∀ kv ∈ g.PermissionStrings, kv.1 ∈ g.consts ∧ isPlainLiteral kv.2 = true) ∧
    (∀ kv ∈ g.StringToPermission, kv.2 ∈ g.consts ∧ isPlainLiteral kv.1 = true) ∧
    (∀ kv ∈ g.PermissionIDs, kv.1 ∈ g.consts) ∧
    (∀ kv ∈ g.IdToPermission, kv.2 ∈ g.consts) ∧
    ((tablesOf g).PermissionStrings.map Prod.fst).Nodup ∧
    ((tablesOf g).StringToPermission.map Prod.fst).Nodup ∧
    ((tablesOf g).PermissionIDs.map Prod.fst).Nodup ∧
    ((tablesOf g).IdToPermission.map Prod.fst).Nodup)

/-- The package the generated file compiles to, if it compiles. -/
def compile (g : Generated) : Option Tables :=
  if compiles g then some (tablesOf g) else none

/-- The generated method `ToString`. -/
def ToString (t : Tables) (p : Nat) : Except String String :=
  match t.PermissionStrings.lookup p with
  | some str => .ok str
  | none => .error "invalid permission"

/-- The generated method `ToID`. -/
def ToID (t : Tables) (p : Nat) : Except String Nat :=
  match t.PermissionIDs.lookup p with
  | some id => .ok id
  | none => .error "invalid permission"

/-- The generated function `PermissionFromString`. -/
def PermissionFromString (t : Tables) (s : String) : Except String Nat :=
  match t.StringToPermission.lookup s with
  | some p => .ok p
  | none => .error "invalid permission string"

/-- The generated function `PermissionFromID`. -/
def PermissionFromID (t : Tables) (id : Nat) : Except String Nat :=
  match t.IdToPermission.lookup id with
  | some p => .ok p
  | none => .error "invalid permission ID"

/-- A stand-in for the title caser on a word of ASCII letters: the first
letter in upper case, the others in lower case. -/
def titleASCII (s : String) : String :=
  match s.data with
  | [] => ""
  | c :: t => String.mk (c.toUpper :: t.map Char.toLower)

end Permissions

/-! # Theorems -/

set_option maxRecDepth 100000

namespace Appointedd

/-! ## Soundness of the matcher -/

theorem orElse_eq_some {α : Type} {o : Option α} {f : Unit → Option α} {res : α}
    (h : o.orElse f = some res) : o = some res ∨ f () = some res := by
  cases o with
  | none => right; simpa [Option.orElse] using h
  | some v => left; simpa [Option.orElse] using h

theorem repRun_sound (D : St → St → Prop)
    (step : St → (St → Option St) → Option St)
    (hstep : ∀ st k res, step st k = some res → ∃ st1, D st st1 ∧ k st1 = some res)
    (greedy : Bool) :
    ∀ (hi lo : Nat) (st : St) (k : St → Option St) (res : St),
      repRun step greedy lo hi st k = some res →
      ∃ n st1, lo ≤ n ∧ n ≤ hi ∧ iter D n st st1 ∧ k st1 = some res := by
  intro hi
  induction hi with
  | zero =>
    intro lo st k res h
    cases lo with
    | zero => exact ⟨0, st, le_refl _, le_refl _, rfl, by simpa [repRun] using h⟩
    | succ lo => simp [repRun] at h
  | succ hi ih =>
    intro lo st k res h
    cases lo with
    | zero =>
      have key : step st (fun st1 => repRun step greedy 0 hi st1 k) = some res ∨
          k st = some res := by
        cases greedy with
        | true =>
          simp only [repRun, if_true] at h
          exact orElse_eq_some h
        | false =>
          simp only [repRun] at h
          rcases orElse_eq_some h with h1 | h1
          · exact Or.inr h1
          · exact Or.inl h1
      rcases key with h1 | h1
      · obtain ⟨m, hm, hk⟩ := hstep _ _ _ h1
        obtain ⟨n, st1, _, hn, hit, hres⟩ := ih 0 m k res hk
        exact ⟨n + 1, st1, Nat.zero_le _, Nat.succ_le_succ hn, ⟨m, hm, hit⟩, hres⟩
      · exact ⟨0, st, le_refl _, Nat.zero_le _, rfl, h1⟩
    | succ lo =>
      simp only [repRun] at h
      obtain ⟨m, hm, hk⟩ := hstep _ _ _ h
      obtain ⟨n, st1, hlo, hn, hit, hres⟩ := ih lo m k res hk
      exact ⟨n + 1, st1, Nat.succ_le_succ hlo, Nat.succ_le_succ hn, ⟨m, hm, hit⟩, hres⟩

theorem run_sound (re : Regex) :
    ∀ (st : St) (k : St → Option St) (res : St),
      re.run st k = some res → ∃ st1, Den re st st1 ∧ k st1 = some res := by
  induction re with
  | empty => intro st k res h; exact ⟨st, rfl, by simpa [Regex.run] using h⟩
  | cls p =>
    intro st k res h
    simp only [Regex.run] at h
    split at h
    · simp at h
    · rename_i x t hrest
      by_cases hp : p x.r = true
      · rw [if_pos hp] at h
        exact ⟨_, ⟨x, t, hrest, hp, rfl⟩, h⟩
      · rw [if_neg hp] at h; simp at h
  | seq a b iha ihb =>
    intro st k res h
    simp only [Regex.run] at h
    obtain ⟨m, hm, hk⟩ := iha _ _ _ h
    obtain ⟨st1, h1, hk1⟩ := ihb _ _ _ hk
    exact ⟨st1, ⟨m, hm, h1⟩, hk1⟩
  | alt a b iha ihb =>
    intro st k res h
    simp only [Regex.run] at h
    rcases orElse_eq_some h with h1 | h1
    · obtain ⟨st1, hd, hk⟩ := iha _ _ _ h1
      exact ⟨st1, Or.inl hd, hk⟩
    · obtain ⟨st1, hd, hk⟩ := ihb _ _ _ h1
      exact ⟨st1, Or.inr hd, hk⟩
  | rep r lo hi greedy ih =>
    intro st k res h
    simp only [Regex.run] at h
    obtain ⟨n, st1, hlo, hhi, hit, hk⟩ :=
      repRun_sound (Den r) (fun s c => r.run s c) ih greedy hi lo st k res h
    exact ⟨st1, ⟨n, hlo, hhi, hit⟩, hk⟩
  | wordBoundary =>
    intro st k res h
    simp only [Regex.run] at h
    split at h
    · rename_i hb
      refine ⟨st, ⟨rfl, ?_⟩, h⟩
      simpa using hb
    · simp at h
  | capture idx r ih =>
    intro st k res h
    simp only [Regex.run] at h
    obtain ⟨m, hm, hk⟩ := ih _ _ _ h
    exact ⟨_, ⟨m, hm, rfl⟩, hk⟩

theorem matchAt_sound {re : Regex} {prev : Option Nat} {s : List Rune} {b : St}
    (h : matchAt re prev s = some b) : Den re ⟨prev, s, []⟩ b := by
  obtain ⟨st1, hd, hk⟩ := run_sound re _ _ _ h
  simp only [Option.some.injEq] at hk
  exact hk ▸ hd


/-! ### Decoding -/

theorem first_some {b sz lo hi : Nat} (h : first b = some (sz, lo, hi)) :
    128 ≤ lo ∧ hi ≤ 191 ∧
    ((sz = 2 ∧ 2 ≤ b % 32) ∨ (sz = 3 ∧ (1 ≤ b % 16 ∨ 160 ≤ lo)) ∨
      (sz = 4 ∧ (1 ≤ b % 8 ∨ 144 ≤ lo))) := by
  unfold first at h
  split_ifs at h <;> simp only [Option.some.injEq, Prod.mk.injEq] at h <;>
    obtain ⟨rfl, rfl, rfl⟩ := h <;> omega

theorem decode_cases (b : Nat) (t : Bytes) :
    (b < 128 ∧ DecodeRuneInString (b :: t) = (b, 1)) ∨
    (128 ≤ (DecodeRuneInString (b :: t)).1 ∧ 1 ≤ (DecodeRuneInString (b :: t)).2) := by
  by_cases hb : b < 128
  · left; exact ⟨hb, by simp [DecodeRuneInString, hb]⟩
  · right
    cases hf : first b with
    | none => simp [DecodeRuneInString, hb, hf, RuneError]
    | some v =>
      obtain ⟨sz, lo, hi⟩ := v
      obtain ⟨hlo, hhi, hsz⟩ := first_some hf
      cases t with
      | nil => simp [DecodeRuneInString, hb, hf, RuneError]
      | cons s1 t1 =>
        by_cases h1 : s1 < lo ∨ hi < s1
        · simp [DecodeRuneInString, hb, hf, h1, RuneError]
        · by_cases h2 : sz ≤ 2
          · simp only [DecodeRuneInString, hb, hf, h1, h2, if_true, if_false]
            constructor <;> omega
          · cases t1 with
            | nil => simp [DecodeRuneInString, hb, hf, h1, h2, RuneError]
            | cons s2 t2 =>
              by_cases h3 : s2 < 0x80 ∨ 0xBF < s2
              · simp [DecodeRuneInString, hb, hf, h1, h2, h3, RuneError]
              · by_cases h4 : sz ≤ 3
                · simp only [DecodeRuneInString, hb, hf, h1, h2, h3, h4, if_true, if_false]
                  constructor <;> omega
                · cases t2 with
                  | nil => simp [DecodeRuneInString, hb, hf, h1, h2, h3, h4, RuneError]
                  | cons s3 t3 =>
                    by_cases h5 : s3 < 0x80 ∨ 0xBF < s3
                    · simp [DecodeRuneInString, hb, hf, h1, h2, h3, h4, h5, RuneError]
                    · simp only [DecodeRuneInString, hb, hf, h1, h2, h3, h4, h5, if_true,
                        if_false]
                      constructor <;> omega

theorem decode_width_pos (b : Nat) (t : Bytes) : 1 ≤ (DecodeRuneInString (b :: t)).2 := by
  rcases decode_cases b t with ⟨_, h⟩ | ⟨_, h⟩
  · rw [h]
  · exact h

theorem bytesOf_decodeAux : ∀ (s : Bytes) (k : Nat), bytesOf (decodeAux k s) = s.drop k := by
  intro s
  induction s with
  | nil => intro k; simp [decodeAux, bytesOf]
  | cons b t ih =>
    intro k
    cases k with
    | zero =>
      have hw := decode_width_pos b t
      have ih1 := ih ((DecodeRuneInString (b :: t)).2 - 1)
      simp only [bytesOf] at ih1
      simp only [decodeAux, bytesOf, List.map_cons, List.flatten_cons, ih1, List.drop_zero]
      obtain ⟨w, hw1⟩ : ∃ w, (DecodeRuneInString (b :: t)).2 = w + 1 := ⟨_, (Nat.sub_add_cancel hw).symm⟩
      rw [hw1]
      simp
    | succ k =>
      simp only [decodeAux, List.drop_succ_cons]
      exact ih k

theorem bytesOf_runes (s : Bytes) : bytesOf (runes s) = s := by
  simp [runes, bytesOf_decodeAux]

theorem decodeAux_ascii : ∀ (s : Bytes) (k : Nat) (x : Rune),
    x ∈ decodeAux k s → x.r < 128 → x.bytes = [x.r] := by
  intro s
  induction s with
  | nil => intro k x hx; simp [decodeAux] at hx
  | cons b t ih =>
    intro k x hx hr
    cases k with
    | zero =>
      simp only [decodeAux, List.mem_cons] at hx
      rcases hx with rfl | hx
      · rcases decode_cases b t with ⟨_, h⟩ | ⟨h, _⟩
        · simp [h]
        · simp only at hr; omega
      · exact ih _ x hx hr
    | succ k =>
      simp only [decodeAux] at hx
      exact ih _ x hx hr

theorem runes_ascii {s : Bytes} {x : Rune} (hx : x ∈ runes s) (hr : x.r < 128) :
    x.bytes = [x.r] :=
  decodeAux_ascii s 0 x hx hr

theorem bytesOf_ascii : ∀ (xs : List Rune), (∀ x ∈ xs, x.bytes = [x.r]) →
    bytesOf xs = xs.map Rune.r := by
  intro xs
  induction xs with
  | nil => intro _; rfl
  | cons x t ih =>
    intro h
    have h1 := ih (fun y hy => h y (List.mem_cons_of_mem _ hy))
    simp only [bytesOf] at h1
    simp [bytesOf, h x (List.mem_cons_self _ _), h1]

theorem bytesOf_append (xs ys : List Rune) : bytesOf (xs ++ ys) = bytesOf xs ++ bytesOf ys := by
  simp [bytesOf]


/-! ### The shape of a match -/

theorem iter_suffix {D : St → St → Prop}
    (hD : ∀ a b, D a b → ∃ mid, a.rest = mid ++ b.rest) :
    ∀ (n : Nat) (a b : St), iter D n a b → ∃ mid, a.rest = mid ++ b.rest := by
  intro n
  induction n with
  | zero => intro a b h; exact ⟨[], by simp [show a = b from h]⟩
  | succ n ih =>
    intro a b h
    obtain ⟨m, h1, h2⟩ := h
    obtain ⟨mid1, e1⟩ := hD _ _ h1
    obtain ⟨mid2, e2⟩ := ih _ _ h2
    exact ⟨mid1 ++ mid2, by rw [e1, e2, List.append_assoc]⟩

theorem Den_suffix (re : Regex) :
    ∀ (a b : St), Den re a b → ∃ mid, a.rest = mid ++ b.rest := by
  induction re with
  | empty => intro a b h; exact ⟨[], by simp [show a = b from h]⟩
  | cls p =>
    intro a b h
    obtain ⟨x, t, hr, _, rfl⟩ := h
    exact ⟨[x], by simp [hr]⟩
  | seq r1 r2 ih1 ih2 =>
    intro a b h
    obtain ⟨m, h1, h2⟩ := h
    obtain ⟨mid1, e1⟩ := ih1 _ _ h1
    obtain ⟨mid2, e2⟩ := ih2 _ _ h2
    exact ⟨mid1 ++ mid2, by rw [e1, e2, List.append_assoc]⟩
  | alt r1 r2 ih1 ih2 =>
    intro a b h
    rcases h with h | h
    · exact ih1 _ _ h
    · exact ih2 _ _ h
  | rep r lo hi g ih =>
    intro a b h
    obtain ⟨n, _, _, hit⟩ := h
    exact iter_suffix ih n a b hit
  | wordBoundary => intro a b h; exact ⟨[], by simp [show a = b from h.1]⟩
  | capture idx r ih =>
    intro a b h
    obtain ⟨m, h1, rfl⟩ := h
    exact ih a m h1

theorem consumed_append (mid rest : List Rune) : consumed (mid ++ rest) rest = mid := by
  simp [consumed]

theorem iter_cls (p : Nat → Bool) :
    ∀ (n : Nat) (a b : St), iter (Den (.cls p)) n a b →
      ∃ tok, a.rest = tok ++ b.rest ∧ tok.length = n ∧ (∀ x ∈ tok, p x.r = true) ∧
        b.caps = a.caps := by
  intro n
  induction n with
  | zero => intro a b h; exact ⟨[], by simp [show a = b from h]⟩
  | succ n ih =>
    intro a b h
    obtain ⟨m, h1, h2⟩ := h
    obtain ⟨x, t, hr, hp, rfl⟩ := h1
    obtain ⟨tok, e, hl, hall, hc⟩ := ih _ _ h2
    refine ⟨x :: tok, ?_, by simp [hl], ?_, hc⟩
    · simp only at e; rw [hr, e]; rfl
    · intro y hy
      rcases List.mem_cons.1 hy with rfl | hy
      · exact hp
      · exact hall y hy

theorem Den_litFold : ∀ (kw : Bytes) (a b : St), Den (litFold kw) a b →
    ∃ xs, a.rest = xs ++ b.rest ∧ List.Forall₂ (fun c x => foldEq c x.r = true) kw xs := by
  intro kw
  induction kw with
  | nil => intro a b h; exact ⟨[], by simp [show a = b from h]⟩
  | cons c t ih =>
    intro a b h
    obtain ⟨m, h1, h2⟩ := h
    obtain ⟨x, t1, hr, hp, rfl⟩ := h1
    obtain ⟨xs, e, hall⟩ := ih _ _ h2
    refine ⟨x :: xs, ?_, List.Forall₂.cons hp hall⟩
    simp only at e; rw [hr, e]; rfl

/-- What a match of `keyPat` looks like: a keyword, a gap, and 88 code points
of the token class as compiled under the flag `i`, the last being both the end
of the match and group 1. -/
theorem keyPat_shape {near : Nat} {greedy : Bool} {prev : Option Nat} {s : List Rune} {b : St}
    (h : matchAt (keyPat near greedy) prev s = some b) :
    ∃ kw gap tok, s = kw ++ gap ++ tok ++ b.rest ∧
      List.Forall₂ (fun c x => foldEq c x.r = true) (ascii "appointedd") kw ∧
      tok.length = 88 ∧ (∀ x ∈ tok, classUnder true tokenClass x.r = true) ∧
      b.caps.lookup 1 = some tok := by
  have hd := matchAt_sound h
  obtain ⟨m1, hpre, m2, hwb, m3, htok, rfl⟩ := hd
  obtain ⟨m0, hkw, hgap⟩ := hpre
  obtain ⟨kw, ekw, hkw2⟩ := Den_litFold _ _ _ hkw
  obtain ⟨gap, egap⟩ := Den_suffix _ _ _ hgap
  obtain ⟨rfl, _⟩ := hwb
  obtain ⟨n, hlo, hhi, hit⟩ := htok
  obtain ⟨tok, etok, hlen, hall, _⟩ := iter_cls _ _ _ _ hit
  have hn : n = 88 := le_antisymm hhi hlo
  refine ⟨kw, gap, tok, ?_, hkw2, hlen.trans hn, hall, ?_⟩
  · simp only at ekw
    rw [ekw, egap, etok]
    simp [List.append_assoc]
  · rw [etok, consumed_append]
    simp [List.lookup]

theorem keyPat_numSubexp (near : Nat) (greedy : Bool) : (keyPat near greedy).numSubexp = 1 := by
  rfl

theorem submatch_keyPat {near : Nat} {greedy : Bool} {prev : Option Nat} {s : List Rune} {b : St}
    (h : matchAt (keyPat near greedy) prev s = some b) :
    ∃ kw gap tok, s = kw ++ gap ++ tok ++ b.rest ∧
      List.Forall₂ (fun c x => foldEq c x.r = true) (ascii "appointedd") kw ∧
      tok.length = 88 ∧ (∀ x ∈ tok, classUnder true tokenClass x.r = true) ∧
      submatch (keyPat near greedy) s b = [bytesOf (kw ++ gap ++ tok), bytesOf tok] := by
  obtain ⟨kw, gap, tok, hs, hkw, hlen, hall, hcap⟩ := keyPat_shape h
  refine ⟨kw, gap, tok, hs, hkw, hlen, hall, ?_⟩
  have hc : consumed s b.rest = kw ++ gap ++ tok := by
    rw [hs, consumed_append]
  simp [submatch, keyPat_numSubexp, hcap, hc, List.range_succ]

/-- Every match delivered starts at some position of the text. -/
theorem mem_allMatches (re : Regex) : ∀ (s : List Rune) (prev : Option Nat) (skip : Nat)
    (am : Bool) (m : List Bytes), m ∈ allMatches re prev skip am s →
    ∃ prev1 s1 b, s1 <:+ s ∧ matchAt re prev1 s1 = some b ∧ m = submatch re s1 b := by
  intro s
  induction s with
  | nil =>
    intro prev skip am m hm
    simp only [allMatches] at hm
    split at hm
    · rename_i b hb
      split at hm
      · simp at hm
      · simp only [List.mem_singleton] at hm
        exact ⟨prev, [], b, List.suffix_refl _, hb, hm⟩
    · simp at hm
  | cons x t ih =>
    intro prev skip am m hm
    have lift : (∃ prev1 s1 b, s1 <:+ t ∧ matchAt re prev1 s1 = some b ∧ m = submatch re s1 b) →
        ∃ prev1 s1 b, s1 <:+ x :: t ∧ matchAt re prev1 s1 = some b ∧ m = submatch re s1 b := by
      rintro ⟨p1, s1, b, hs, hb, he⟩
      exact ⟨p1, s1, b, hs.trans (List.suffix_cons _ _), hb, he⟩
    cases skip with
    | succ skip =>
      simp only [allMatches] at hm
      exact lift (ih _ _ _ _ hm)
    | zero =>
      simp only [allMatches] at hm
      split at hm
      · exact lift (ih _ _ _ _ hm)
      · rename_i b hb
        split at hm
        · split at hm
          · exact lift (ih _ _ _ _ hm)
          · rcases List.mem_cons.1 hm with rfl | hm
            · exact ⟨prev, x :: t, b, List.suffix_refl _, hb, rfl⟩
            · exact lift (ih _ _ _ _ hm)
        · rcases List.mem_cons.1 hm with rfl | hm
          · exact ⟨prev, x :: t, b, List.suffix_refl _, hb, rfl⟩
          · exact lift (ih _ _ _ _ hm)


/-! ### Matches of `keyPat` in a buffer -/

theorem tokenClass_lt {r : Nat} (h : tokenClass r = true) : r < 128 := by
  simp only [tokenClass, Bool.decide_or, Bool.decide_and, Bool.or_eq_true, Bool.and_eq_true,
    decide_eq_true_eq] at h
  omega

theorem tokenClass_not_space {r : Nat} (h : tokenClass r = true) : asciiSpace r = false := by
  simp only [tokenClass, Bool.decide_or, Bool.decide_and, Bool.or_eq_true, Bool.and_eq_true,
    decide_eq_true_eq] at h
  simp only [asciiSpace, Bool.decide_or, Bool.or_eq_false_iff, decide_eq_false_iff_not]
  omega

theorem foldEq_letter {c r : Nat} (hc : 97 ≤ c ∧ c ≤ 122 ∧ c ≠ 107 ∧ c ≠ 115)
    (h : foldEq c r = true) : r < 128 ∧ lowerASCII r = c := by
  simp only [foldEq, Bool.decide_or, Bool.decide_and, Bool.or_eq_true, Bool.and_eq_true,
    decide_eq_true_eq] at h
  unfold lowerASCII
  split_ifs <;> omega

theorem forall₂_fold : ∀ (kw : Bytes) (xs : List Rune),
    (∀ c ∈ kw, 97 ≤ c ∧ c ≤ 122 ∧ c ≠ 107 ∧ c ≠ 115) →
    List.Forall₂ (fun c x => foldEq c x.r = true) kw xs →
    (∀ x ∈ xs, x.r < 128) ∧ (xs.map Rune.r).map lowerASCII = kw := by
  intro kw xs hkw h
  induction h with
  | nil => simp
  | @cons c x kw1 xs1 hcx _ ih =>
    have h1 := foldEq_letter (hkw c (List.mem_cons_self _ _)) hcx
    have h2 := ih (fun d hd => hkw d (List.mem_cons_of_mem _ hd))
    refine ⟨?_, by simp [h1.2, h2.2]⟩
    intro y hy
    rcases List.mem_cons.1 hy with rfl | hy
    · exact h1.1
    · exact h2.1 y hy

theorem tokenClass_iff (r : Nat) :
    tokenClass r = true ↔
      (97 ≤ r ∧ r ≤ 122) ∨ (65 ≤ r ∧ r ≤ 90) ∨ (48 ≤ r ∧ r ≤ 57) ∨ r = 61 ∨ r = 43 := by
  simp [tokenClass]

/-- Under the flag `i` the token class holds two more code points. -/
theorem classUnder_token {r : Nat} (h : classUnder true tokenClass r = true) :
    tokenClass r = true ∨ r = 0x17F ∨ r = 0x212A := by
  by_cases h1 : tokenClass r = true
  · exact Or.inl h1
  · right
    by_contra hne
    have h2 : ¬ r = 0x212A := fun e => hne (Or.inr e)
    have h3 : ¬ r = 0x17F := fun e => hne (Or.inl e)
    have h4 : ¬ (97 ≤ r ∧ r ≤ 122) := fun e => h1 ((tokenClass_iff r).2 (Or.inl e))
    have h5 : ¬ (65 ≤ r ∧ r ≤ 90) := fun e => h1 ((tokenClass_iff r).2 (Or.inr (Or.inl e)))
    have h6 : tokenClass r = false := by simpa using h1
    simp [classUnder, foldOrbit, h2, h3, h4, h5, h6] at h

theorem first_range {b sz lo hi : Nat} (h : first b = some (sz, lo, hi)) :
    128 ≤ lo ∧ hi ≤ 191 ∧
    ((sz = 2 ∧ 194 ≤ b ∧ b ≤ 223) ∨ (sz = 3 ∧ 224 ≤ b ∧ b ≤ 239 ∧ (b = 224 → 160 ≤ lo)) ∨
      (sz = 4 ∧ 240 ≤ b ∧ b ≤ 244 ∧ (b = 240 → 144 ≤ lo))) := by
  unfold first at h
  split_ifs at h <;> simp only [Option.some.injEq, Prod.mk.injEq] at h <;>
    obtain ⟨rfl, rfl, rfl⟩ := h <;> omega

/-- The two code points the flag adds are decoded from their UTF-8 encoding
only. -/
theorem decode_fold (b : Nat) (t : Bytes) :
    ((DecodeRuneInString (b :: t)).1 = 0x17F →
        (b :: t).take (DecodeRuneInString (b :: t)).2 = [0xC5, 0xBF]) ∧
      ((DecodeRuneInString (b :: t)).1 = 0x212A →
        (b :: t).take (DecodeRuneInString (b :: t)).2 = [0xE2, 0x84, 0xAA]) := by
  by_cases hb : b < 128
  · have hd : DecodeRuneInString (b :: t) = (b, 1) := by simp [DecodeRuneInString, hb]
    rw [hd]
    constructor <;> intro h <;> simp only at h <;> omega
  · cases hf : first b with
    | none => simp [DecodeRuneInString, hb, hf, RuneError]
    | some v =>
      obtain ⟨sz, lo, hi⟩ := v
      obtain ⟨hlo, hhi, hsz⟩ := first_range hf
      cases t with
      | nil => simp [DecodeRuneInString, hb, hf, RuneError]
      | cons s1 t1 =>
        by_cases h1 : s1 < lo ∨ hi < s1
        · simp [DecodeRuneInString, hb, hf, h1, RuneError]
        · by_cases h2 : sz ≤ 2
          · simp only [DecodeRuneInString, hb, hf, h1, h2, if_true, if_false]
            constructor
            · intro h
              have e1 : b = 0xC5 := by omega
              have e2 : s1 = 0xBF := by omega
              subst e1 e2
              rfl
            · intro h; omega
          · cases t1 with
            | nil => simp [DecodeRuneInString, hb, hf, h1, h2, RuneError]
            | cons s2 t2 =>
              by_cases h3 : s2 < 0x80 ∨ 0xBF < s2
              · simp [DecodeRuneInString, hb, hf, h1, h2, h3, RuneError]
              · by_cases h4 : sz ≤ 3
                · simp only [DecodeRuneInString, hb, hf, h1, h2, h3, h4, if_true, if_false]
                  constructor
                  · intro h; omega
                  · intro h
                    have e1 : b = 0xE2 := by omega
                    have e2 : s1 = 0x84 := by omega
                    have e3 : s2 = 0xAA := by omega
                    subst e1 e2 e3
                    rfl
                · cases t2 with
                  | nil => simp [DecodeRuneInString, hb, hf, h1, h2, h3, h4, RuneError]
                  | cons s3 t3 =>
                    by_cases h5 : s3 < 0x80 ∨ 0xBF < s3
                    · simp [DecodeRuneInString, hb, hf, h1, h2, h3, h4, h5, RuneError]
                    · simp only [DecodeRuneInString, hb, hf, h1, h2, h3, h4, h5, if_true,
                        if_false]
                      constructor <;> intro h <;> omega

theorem decodeAux_fold : ∀ (s : Bytes) (k : Nat) (x : Rune), x ∈ decodeAux k s →
    (x.r = 0x17F → x.bytes = [0xC5, 0xBF]) ∧ (x.r = 0x212A → x.bytes = [0xE2, 0x84, 0xAA]) := by
  intro s
  induction s with
  | nil => intro k x hx; simp [decodeAux] at hx
  | cons b t ih =>
    intro k x hx
    cases k with
    | zero =>
      simp only [decodeAux, List.mem_cons] at hx
      rcases hx with rfl | hx
      · exact decode_fold b t
      · exact ih _ x hx
    | succ k =>
      simp only [decodeAux] at hx
      exact ih _ x hx

/-- A code point of the compiled token class, decoded from a buffer, is one
byte of the class as written or the encoding of U+017F or U+212A. -/
theorem tokenRune_of_mem {s : Bytes} {x : Rune} (hx : x ∈ runes s)
    (hc : classUnder true tokenClass x.r = true) : TokenRune x := by
  rcases classUnder_token hc with h | h | h
  · exact Or.inl ⟨h, runes_ascii hx (tokenClass_lt h)⟩
  · right; left
    have hb := (decodeAux_fold s 0 x hx).1 h
    cases x
    simp only at h hb
    rw [h, hb]
  · right; right
    have hb := (decodeAux_fold s 0 x hx).2 h
    cases x
    simp only at h hb
    rw [h, hb]

/-- A match of `keyPat` in a buffer: some context that starts with the keyword
in any case, then the token, which is group 1. -/
theorem mem_FindAll_keyPat {near : Nat} {greedy : Bool} {data : Bytes} {m : List Bytes}
    (hm : m ∈ FindAllStringSubmatch (keyPat near greedy) data) :
    ∃ (pre kw gap post : Bytes) (tok : List Rune),
      data = pre ++ kw ++ gap ++ bytesOf tok ++ post ∧
      m = [kw ++ gap ++ bytesOf tok, bytesOf tok] ∧ kw.map lowerASCII = ascii "appointedd" ∧
      tok.length = 88 ∧ (∀ x ∈ tok, TokenRune x) := by
  obtain ⟨prev1, s1, b, hsuf, hb, rfl⟩ := mem_allMatches _ _ _ _ _ _ hm
  obtain ⟨kw, gap, tok, hs, hkw, hlen, hall, hsub⟩ := submatch_keyPat hb
  obtain ⟨pre, hpre⟩ := hsuf
  have hrunes : runes data = pre ++ kw ++ gap ++ tok ++ b.rest := by
    rw [← hpre, hs]; simp [List.append_assoc]
  have hkwf := forall₂_fold _ _ (by decide) hkw
  have hkwb : bytesOf kw = kw.map Rune.r := by
    apply bytesOf_ascii
    intro x hx
    exact runes_ascii (by rw [hrunes]; simp [hx]) (hkwf.1 x hx)
  refine ⟨bytesOf pre, bytesOf kw, bytesOf gap, bytesOf b.rest, tok, ?_, ?_, ?_, hlen, ?_⟩
  · have := congrArg bytesOf hrunes
    rw [bytesOf_runes] at this
    simpa [bytesOf_append] using this
  · rw [hsub]; simp [bytesOf_append]
  · rw [hkwb]; exact hkwf.2
  · intro x hx
    exact tokenRune_of_mem (by rw [hrunes]; simp [hx]) (hall x hx)

theorem tokenRune_not_space {x : Rune} (h : TokenRune x) : IsSpace x.r = false := by
  rcases h with ⟨h, _⟩ | rfl | rfl
  · have h1 := (tokenClass_iff x.r).1 h
    have h2 : x.r ≤ 0xFF := by omega
    simp only [IsSpace, h2, if_true, Bool.decide_or, Bool.or_eq_false_iff,
      decide_eq_false_iff_not]
    omega
  · decide
  · decide

theorem decodeAux_tokenRune {x : Rune} (h : TokenRune x) (s : Bytes) :
    decodeAux 0 (x.bytes ++ s) = x :: decodeAux 0 s := by
  rcases h with ⟨h, hb⟩ | rfl | rfl
  · have hlt := tokenClass_lt h
    cases x with
    | mk r bytes =>
      simp only at hb hlt
      subst hb
      simp [decodeAux, DecodeRuneInString, hlt]
  · simp [decodeAux, DecodeRuneInString, first]
  · simp [decodeAux, DecodeRuneInString, first]

theorem decodeAux_bytesOf : ∀ (tok : List Rune) (s : Bytes), (∀ x ∈ tok, TokenRune x) →
    decodeAux 0 (bytesOf tok ++ s) = tok ++ decodeAux 0 s := by
  intro tok
  induction tok with
  | nil => intro s _; simp [bytesOf]
  | cons x t ih =>
    intro s h
    have h1 := ih s (fun y hy => h y (List.mem_cons_of_mem _ hy))
    have h2 := decodeAux_tokenRune (h x (List.mem_cons_self _ _)) (bytesOf t ++ s)
    have e : bytesOf (x :: t) ++ s = x.bytes ++ (bytesOf t ++ s) := by simp [bytesOf]
    rw [e, h2, h1]
    rfl

theorem runes_bytesOf {tok : List Rune} (h : ∀ x ∈ tok, TokenRune x) :
    runes (bytesOf tok) = tok := by
  have := decodeAux_bytesOf tok [] h
  simpa [runes, decodeAux] using this

theorem TrimRightSpace_tokenRune {y : Rune} (h : TokenRune y) (init : Bytes) :
    TrimRightSpace (init ++ y.bytes) = init ++ y.bytes := by
  have hns := tokenRune_not_space h
  rcases h with ⟨h, hb⟩ | rfl | rfl
  · have hlt := tokenClass_lt h
    rw [hb]
    have hd : DecodeLastRuneInString (y.r :: init.reverse) = (y.r, 1) := by
      simp [DecodeLastRuneInString, hlt]
    have hl : lastNonSpace 0 (init ++ [y.r]).reverse = some init.reverse := by
      simp [lastNonSpace, hd, hns]
    have hg : (init ++ [y.r]).getD init.length 0 = y.r := by simp [List.getD_eq_getElem?_getD]
    unfold TrimRightSpace
    rw [hl]
    simp only [List.length_reverse, hg]
    rw [if_neg (by omega)]
    simp
  · have hd : DecodeLastRuneInString (0xBF :: 0xC5 :: init.reverse) = (0x17F, 2) := by
      simp [DecodeLastRuneInString, RuneStart, DecodeRuneInString, first]
    have hl : lastNonSpace 0 (init ++ [0xC5, 0xBF]).reverse = some init.reverse := by
      simp only [List.reverse_append, List.reverse_cons, List.reverse_nil, List.nil_append,
        List.singleton_append, List.cons_append, lastNonSpace, hd]
      simp [IsSpace]
    have hg : (init ++ [0xC5, 0xBF]).getD init.length 0 = 0xC5 := by
      rw [List.getD_eq_getElem?_getD, List.getElem?_append_right (le_refl _)]
      simp
    unfold TrimRightSpace
    simp only [hl, List.length_reverse, hg]
    simp [DecodeRuneInString, first]
  · have hd : DecodeLastRuneInString (0xAA :: 0x84 :: 0xE2 :: init.reverse) = (0x212A, 3) := by
      simp [DecodeLastRuneInString, RuneStart, DecodeRuneInString, first]
    have hl : lastNonSpace 0 (init ++ [0xE2, 0x84, 0xAA]).reverse = some init.reverse := by
      simp only [List.reverse_append, List.reverse_cons, List.reverse_nil, List.nil_append,
        List.singleton_append, List.cons_append, lastNonSpace, hd]
      simp [IsSpace]
    have hg : (init ++ [0xE2, 0x84, 0xAA]).getD init.length 0 = 0xE2 := by
      rw [List.getD_eq_getElem?_getD, List.getElem?_append_right (le_refl _)]
      simp
    unfold TrimRightSpace
    simp only [hl, List.length_reverse, hg]
    simp [DecodeRuneInString, first]


theorem trimASCII_token {c : Nat} (t : Bytes) (h : tokenClass c = true) :
    trimASCII (c :: t) = (c :: t, false) := by
  have h1 := tokenClass_lt h
  have h2 := tokenClass_not_space h
  simp only [trimASCII, h2]
  rw [if_neg (by omega)]
  simp

theorem trimASCII_high {c : Nat} (t : Bytes) (h : 128 ≤ c) :
    trimASCII (c :: t) = (c :: t, true) := by
  simp [trimASCII, h]

theorem tokenRune_bytes {x : Rune} (h : TokenRune x) :
    ∃ c rest, x.bytes = c :: rest ∧
      ((tokenClass c = true ∧ rest = []) ∨ (128 ≤ c ∧ ∀ d ∈ c :: rest, 128 ≤ d)) := by
  rcases h with ⟨h, hb⟩ | rfl | rfl
  · exact ⟨x.r, [], hb, Or.inl ⟨h, rfl⟩⟩
  · exact ⟨0xC5, [0xBF], rfl, Or.inr ⟨by decide, by decide⟩⟩
  · exact ⟨0xE2, [0x84, 0xAA], rfl, Or.inr ⟨by decide, by decide⟩⟩

/-- The trim at extraction leaves a token as it is, also when it holds one of
the two code points of more than one byte. -/
theorem TrimSpace_token {tok : List Rune} (hne : tok ≠ [])
    (hall : ∀ x ∈ tok, TokenRune x) : TrimSpace (bytesOf tok) = bytesOf tok := by
  -- the last code point
  obtain ⟨init, y, rfl⟩ : ∃ init y, tok = init ++ [y] :=
    ⟨tok.dropLast, tok.getLast hne, (List.dropLast_append_getLast hne).symm⟩
  have hy : TokenRune y := hall y (by simp)
  have hlast : bytesOf (init ++ [y]) = bytesOf init ++ y.bytes := by simp [bytesOf]
  have hright := TrimRightSpace_tokenRune hy (bytesOf init)
  rw [← hlast] at hright
  -- the first code point
  cases hinit : init ++ [y] with
  | nil => simp at hinit
  | cons x rest =>
    have hx : TokenRune x := hall x (by rw [hinit]; exact List.mem_cons_self _ _)
    have hfirst : bytesOf (x :: rest) = x.bytes ++ bytesOf rest := by simp [bytesOf]
    rw [hinit] at hright hlast
    obtain ⟨c, r1, hc, hcase⟩ := tokenRune_bytes hx
    rcases hcase with ⟨hcl, rfl⟩ | ⟨hhigh, _⟩
    · -- an ASCII first byte: the first loop stops at once
      have h1 : trimASCII (bytesOf (x :: rest)) = (bytesOf (x :: rest), false) := by
        rw [hfirst, hc]
        exact trimASCII_token _ hcl
      obtain ⟨d, r2, hd, hcase2⟩ := tokenRune_bytes hy
      have hrev : (bytesOf (x :: rest)).reverse = y.bytes.reverse ++ (bytesOf init).reverse := by
        rw [hlast]; simp
      rcases hcase2 with ⟨hdl, rfl⟩ | ⟨_, hall2⟩
      · have h2 : trimASCII (bytesOf (x :: rest)).reverse =
            ((bytesOf (x :: rest)).reverse, false) := by
          rw [hrev, hd]
          exact trimASCII_token _ hdl
        simp only [TrimSpace, h1, h2]
        simp
      · have hl : ∃ e u, y.bytes.reverse = e :: u ∧ 128 ≤ e := by
          cases hr : y.bytes.reverse with
          | nil => rw [hd] at hr; simp at hr
          | cons e u =>
            refine ⟨e, u, rfl, hall2 e ?_⟩
            have : e ∈ y.bytes.reverse := by rw [hr]; exact List.mem_cons_self _ _
            rw [← hd]
            exact List.mem_reverse.1 this
        obtain ⟨e, u, he, hge⟩ := hl
        have h2 : trimASCII (bytesOf (x :: rest)).reverse =
            ((bytesOf (x :: rest)).reverse, true) := by
          rw [hrev, he]
          exact trimASCII_high _ hge
        simp only [TrimSpace, h1, h2]
        simpa using hright
    · -- a first byte of 0x80 or more: the Unicode path on the whole token
      have h1 : trimASCII (bytesOf (x :: rest)) = (bytesOf (x :: rest), true) := by
        rw [hfirst, hc]
        exact trimASCII_high _ hhigh
      have hall1 : ∀ z ∈ x :: rest, TokenRune z := by
        intro z hz; exact hall z (by rw [hinit]; exact hz)
      have hleft : TrimLeftSpace (bytesOf (x :: rest)) = bytesOf (x :: rest) := by
        unfold TrimLeftSpace
        rw [runes_bytesOf hall1]
        simp [List.dropWhile, tokenRune_not_space hx]
      simp only [TrimSpace, h1, hleft]
      simpa using hright

theorem candidate_match {near : Nat} {greedy : Bool} {data : Bytes} {m : List Bytes}
    (hm : m ∈ FindAllStringSubmatch (keyPat near greedy) data) :
    m.length = 2 ∧ candidate m = m.getD 1 [] := by
  obtain ⟨pre, kw, gap, post, tok, _, rfl, _, hlen, hall⟩ := mem_FindAll_keyPat hm
  have hne : tok ≠ [] := by
    intro e; rw [e] at hlen; simp at hlen
  have ht := TrimSpace_token hne hall
  simp [candidate, ht]


/-! ### Deduplication -/

theorem mem_cleanAux : ∀ (l : List Result) (seen : List Bytes) (r : Result),
    r ∈ cleanAux seen l → r ∈ l ∧ r.Raw ∉ seen := by
  intro l
  induction l with
  | nil => intro seen r h; simp [cleanAux] at h
  | cons x rs ih =>
    intro seen r h
    simp only [cleanAux] at h
    split_ifs at h with hx
    · obtain ⟨h1, h2⟩ := ih _ _ h
      exact ⟨List.mem_cons_of_mem _ h1, h2⟩
    · rcases List.mem_cons.1 h with rfl | h
      · exact ⟨List.mem_cons_self _ _, hx⟩
      · obtain ⟨h1, h2⟩ := ih _ _ h
        exact ⟨List.mem_cons_of_mem _ h1, fun hc => h2 (List.mem_cons_of_mem _ hc)⟩

theorem cleanAux_sublist : ∀ (l : List Result) (seen : List Bytes),
    (cleanAux seen l).Sublist l := by
  intro l
  induction l with
  | nil => intro seen; simp [cleanAux]
  | cons x rs ih =>
    intro seen
    simp only [cleanAux]
    split_ifs
    · exact (ih _).cons _
    · exact (ih _).cons₂ _

theorem cleanAux_nodup : ∀ (l : List Result) (seen : List Bytes),
    ((cleanAux seen l).map Result.Raw).Nodup := by
  intro l
  induction l with
  | nil => intro seen; simp [cleanAux]
  | cons x rs ih =>
    intro seen
    simp only [cleanAux]
    split_ifs
    · exact ih _
    · rw [List.map_cons, List.nodup_cons]
      refine ⟨?_, ih _⟩
      intro hmem
      obtain ⟨r, hr, he⟩ := List.mem_map.1 hmem
      exact (mem_cleanAux _ _ _ hr).2 (by rw [he]; exact List.mem_cons_self _ _)

theorem cleanAux_cover : ∀ (l : List Result) (seen : List Bytes) (r : Result),
    r ∈ l → r.Raw ∉ seen → ∃ r1 ∈ cleanAux seen l, r1.Raw = r.Raw := by
  intro l
  induction l with
  | nil => intro seen r h; simp at h
  | cons x rs ih =>
    intro seen r h hs
    simp only [cleanAux]
    split_ifs with hx
    · rcases List.mem_cons.1 h with rfl | h
      · exact absurd hx hs
      · exact ih _ _ h hs
    · by_cases he : r.Raw = x.Raw
      · exact ⟨x, List.mem_cons_self _ _, he.symm⟩
      · rcases List.mem_cons.1 h with rfl | h
        · exact absurd rfl he
        · obtain ⟨r1, h1, h2⟩ := ih (x.Raw :: seen) r h (by
            intro hc
            rcases List.mem_cons.1 hc with hc | hc
            · exact he hc
            · exact hs hc)
          exact ⟨r1, List.mem_cons_of_mem _ h1, h2⟩

theorem cleanAux_first : ∀ (l : List Result) (seen : List Bytes) (r : Result),
    r ∈ cleanAux seen l → l.find? (fun x => decide (x.Raw = r.Raw)) = some r := by
  intro l
  induction l with
  | nil => intro seen r h; simp [cleanAux] at h
  | cons x rs ih =>
    intro seen r h
    simp only [cleanAux] at h
    split_ifs at h with hx
    · have hne : ¬ x.Raw = r.Raw := fun he => (mem_cleanAux _ _ _ h).2 (he ▸ hx)
      simp only [List.find?_cons, hne, decide_False]
      exact ih _ _ h
    · rcases List.mem_cons.1 h with rfl | h
      · simp
      · have hne : ¬ x.Raw = r.Raw := fun he =>
          (mem_cleanAux _ _ _ h).2 (he ▸ List.mem_cons_self _ _)
        simp only [List.find?_cons, hne, decide_False]
        exact ih _ _ h

theorem mem_CleanResults {l : List Result} {r : Result} (h : r ∈ CleanResults l) : r ∈ l :=
  (mem_cleanAux _ _ _ h).1

theorem CleanResults_cover {l : List Result} {r : Result} (h : r ∈ l) :
    ∃ r1 ∈ CleanResults l, r1.Raw = r.Raw :=
  cleanAux_cover _ _ _ h (by simp)

/-! ### The loop -/

theorem process_raw {env : Env} {verify : Bool} {c : Bytes} {r : Result}
    (h : (process env verify c).1 = some r) :
    r.Raw = c ∧ r.DetectorType = .Appointedd ∧ r.VerificationError = none := by
  unfold process at h
  cases verify with
  | false => simp at h; subst h; simp
  | true =>
    simp only [if_true] at h
    split at h
    · simp at h
    · simp at h; subst h; simp
    · simp at h
    · split_ifs at h <;> simp at h <;> subst h <;> simp

theorem loopResults_FindAll (env : Env) (verify : Bool) (data : Bytes) :
    loopResults env verify (FindAllStringSubmatch (keyPat env.near env.greedy) data) =
      (candidates env data).filterMap (fun c => (process env verify c).1) := by
  unfold loopResults candidates
  rw [List.filterMap_map]
  apply List.filterMap_congr
  intro m hm
  have h2 := (candidate_match hm).1
  simp [loopBody, h2]

theorem FromDataEvents_eq (env : Env) (verify : Bool) (data : Bytes) :
    FromDataEvents env verify data =
      ((candidates env data).map (fun c => (process env verify c).2)).flatten := by
  unfold FromDataEvents candidates
  rw [List.map_map]
  congr 1
  apply List.map_congr_left
  intro m hm
  have h2 := (candidate_match hm).1
  simp [loopBody, h2]

/-- The Results returned are the ones the loop builds for the candidates. -/
theorem mem_FromData {env : Env} {verify : Bool} {data : Bytes} {r : Result}
    (h : r ∈ FromData env verify data) :
    r.Raw ∈ candidates env data ∧ (process env verify r.Raw).1 = some r := by
  have h1 := mem_CleanResults h
  rw [loopResults_FindAll] at h1
  obtain ⟨c, hc, hp⟩ := List.mem_filterMap.1 h1
  have hr := (process_raw hp).1
  subst hr
  exact ⟨hc, hp⟩

/-- A candidate for which the loop builds a Result has one returned. -/
theorem FromData_cover {env : Env} {verify : Bool} {data : Bytes} {c : Bytes} {r : Result}
    (hc : c ∈ candidates env data) (hp : (process env verify c).1 = some r) :
    r ∈ FromData env verify data := by
  have h1 : r ∈ loopResults env verify
      (FindAllStringSubmatch (keyPat env.near env.greedy) data) := by
    rw [loopResults_FindAll]
    exact List.mem_filterMap.2 ⟨c, hc, hp⟩
  obtain ⟨r1, hr1, he⟩ := CleanResults_cover h1
  have h2 := (mem_FromData hr1).2
  rw [he, (process_raw hp).1, hp] at h2
  simp only [Option.some.injEq] at h2
  exact h2 ▸ hr1


/-! ## The claims about the detector -/

/-- C1: in a buffer where `keyPat` matches exactly once, `FromData` with
`verify = false` returns exactly one Result: detector type Appointedd,
`Verified = false` (verdict NotVerified), `Raw` the trimmed group 1 of the
match; and it makes no verification call (no event at all). -/
theorem C1_single_match_not_verified (env : Env) (data : Bytes) (m : List Bytes)
    (h : FindAllStringSubmatch (keyPat env.near env.greedy) data = [m]) :
    FromData env false data =
        [{ DetectorType := .Appointedd, Raw := TrimSpace (m.getD 1 []), Verified := false }] ∧
      (∀ r ∈ FromData env false data, r.verdict = .NotVerified) ∧
      FromDataEvents env false data = [] := by
  have hm : m ∈ FindAllStringSubmatch (keyPat env.near env.greedy) data := by
    rw [h]; exact List.mem_singleton_self _
  have h2 := (candidate_match hm).1
  have hF : FromData env false data =
      [{ DetectorType := .Appointedd, Raw := TrimSpace (m.getD 1 []), Verified := false }] := by
    simp [FromData, h, loopResults, loopBody, h2, process, candidate, CleanResults, cleanAux]
  refine ⟨hF, ?_, ?_⟩
  · rw [hF]
    intro r hr
    rw [List.mem_singleton.1 hr]
    rfl
  · simp [FromDataEvents, h, loopBody, h2, process]

theorem C1_witness :
    FindAllStringSubmatch (keyPat envRefused.near envRefused.greedy) sampleBuffer =
        [[ascii "APPOINTEDD_API_KEY = " ++ sampleToken, sampleToken]] ∧
      FromData envRefused false sampleBuffer = [sampleResult] ∧
      FromDataEvents envRefused false sampleBuffer = [] :=
  have h : FindAllStringSubmatch (keyPat envRefused.near envRefused.greedy) sampleBuffer =
      [[ascii "APPOINTEDD_API_KEY = " ++ sampleToken, sampleToken]] := by decide
  have t := C1_single_match_not_verified envRefused sampleBuffer _ h
  ⟨h, by rw [t.1]; decide, t.2.2⟩

/-- C2: with `verify = true`, a candidate whose response body holds the marker
`total` has a Result returned, every Result returned for it has
`Verified = true`, and the false-positive screen is never run on it. -/
theorem C2_marker_verified (env : Env) (data c b : Bytes)
    (hc : c ∈ candidates env data) (hx : env.exchange c = .body b)
    (ht : Contains b (ascii "total") = true) :
    (∃ r ∈ FromData env true data, r.Raw = c) ∧
      (∀ r ∈ FromData env true data, r.Raw = c → r.Verified = true ∧ r.verdict = .Verified) ∧
      Event.screen c ∉ FromDataEvents env true data := by
  have hp : process env true c =
      (some { DetectorType := .Appointedd, Raw := c, Verified := true }, [.httpDo c]) := by
    simp [process, hx, ht]
  refine ⟨⟨_, FromData_cover hc (by rw [hp]), rfl⟩, ?_, ?_⟩
  · intro r hr he
    have h2 := (mem_FromData hr).2
    rw [he, hp] at h2
    simp only [Option.some.injEq] at h2
    subst h2
    exact ⟨rfl, rfl⟩
  · rw [FromDataEvents_eq]
    intro hmem
    obtain ⟨l, hl, hin⟩ := List.mem_flatten.1 hmem
    obtain ⟨c1, _, rfl⟩ := List.mem_map.1 hl
    by_cases he : c1 = c
    · subst he; rw [hp] at hin; simp at hin
    · unfold process at hin
      simp only [if_true] at hin
      split at hin <;> (try split_ifs at hin) <;> simp at hin <;> exact he hin.symm

theorem C2_witness :
    sampleToken ∈ candidates envLive sampleBuffer ∧
      (∃ r ∈ FromData envLive true sampleBuffer, r.Raw = sampleToken) ∧
      (∀ r ∈ FromData envLive true sampleBuffer, r.Raw = sampleToken →
        r.Verified = true ∧ r.verdict = .Verified) ∧
      Event.screen sampleToken ∉ FromDataEvents envLive true sampleBuffer :=
  have hc : sampleToken ∈ candidates envLive sampleBuffer := by decide
  ⟨hc, C2_marker_verified envLive sampleBuffer sampleToken (ascii "total: 3") hc rfl
    (by decide)⟩

/-- C3: with `verify = true`, a candidate whose response body was read and
does not hold the marker `total`: if the screen flags it, no Result for it is
returned; otherwise a Result for it is returned, with `Verified = false`
(verdict NotVerified). -/
theorem C3_no_marker (env : Env) (data c b : Bytes)
    (hc : c ∈ candidates env data) (hx : env.exchange c = .body b)
    (ht : Contains b (ascii "total") = false) :
    (env.IsKnownFalsePositive c = true → ∀ r ∈ FromData env true data, r.Raw ≠ c) ∧
      (env.IsKnownFalsePositive c = false →
        (∃ r ∈ FromData env true data, r.Raw = c) ∧
        ∀ r ∈ FromData env true data, r.Raw = c →
          r.Verified = false ∧ r.verdict = .NotVerified) := by
  constructor
  · intro hfp r hr he
    have h2 := (mem_FromData hr).2
    rw [he] at h2
    simp [process, hx, ht, hfp] at h2
  · intro hfp
    have hp : process env true c =
        (some { DetectorType := .Appointedd, Raw := c }, [.httpDo c, .screen c]) := by
      simp [process, hx, ht, hfp]
    refine ⟨⟨_, FromData_cover hc (by rw [hp]), rfl⟩, ?_⟩
    intro r hr he
    have h2 := (mem_FromData hr).2
    rw [he, hp] at h2
    simp only [Option.some.injEq] at h2
    subst h2
    exact ⟨rfl, rfl⟩

theorem C3_witness :
    sampleToken ∈ candidates envDenied sampleBuffer ∧
      (envDenied.IsKnownFalsePositive sampleToken = true →
        ∀ r ∈ FromData envDenied true sampleBuffer, r.Raw ≠ sampleToken) ∧
      (envDenied.IsKnownFalsePositive sampleToken = false →
        (∃ r ∈ FromData envDenied true sampleBuffer, r.Raw = sampleToken) ∧
        ∀ r ∈ FromData envDenied true sampleBuffer, r.Raw = sampleToken →
          r.Verified = false ∧ r.verdict = .NotVerified) :=
  have hc : sampleToken ∈ candidates envDenied sampleBuffer := by decide
  ⟨hc, C3_no_marker envDenied sampleBuffer sampleToken (ascii "unauthorized") hc rfl
    (by decide)⟩

/-- C4, as the code has it: with `verify = true`, a candidate whose call fails
at the transport level still has a Result returned, and every Result returned
for it has `Verified = false` and carries no error (verdict NotVerified). -/
theorem C4_transport_error_not_recorded (env : Env) (data c : Bytes) (e : String)
    (hc : c ∈ candidates env data) (hx : env.exchange c = .transportError e) :
    (∃ r ∈ FromData env true data, r.Raw = c) ∧
      ∀ r ∈ FromData env true data, r.Raw = c →
        r.Verified = false ∧ r.VerificationError = none ∧ r.verdict = .NotVerified := by
  have hp : process env true c =
      (some { DetectorType := .Appointedd, Raw := c }, [.httpDo c]) := by
    simp [process, hx]
  refine ⟨⟨_, FromData_cover hc (by rw [hp]), rfl⟩, ?_⟩
  intro r hr he
  have h2 := (mem_FromData hr).2
  rw [he, hp] at h2
  simp only [Option.some.injEq] at h2
  subst h2
  exact ⟨rfl, rfl, rfl⟩

theorem C4_witness :
    sampleToken ∈ candidates envRefused sampleBuffer ∧
      (∃ r ∈ FromData envRefused true sampleBuffer, r.Raw = sampleToken) ∧
      ∀ r ∈ FromData envRefused true sampleBuffer, r.Raw = sampleToken →
        r.Verified = false ∧ r.VerificationError = none ∧ r.verdict = .NotVerified :=
  have hc : sampleToken ∈ candidates envRefused sampleBuffer := by decide
  ⟨hc, C4_transport_error_not_recorded envRefused sampleBuffer sampleToken
    "connection refused" hc rfl⟩

/-- C4 fails as stated: the endpoint refuses the connection, and the one
Result returned carries no error; its verdict is NotVerified, not
VerificationError. -/
theorem C4_counterexample :
    envRefused.exchange sampleToken = .transportError "connection refused" ∧
      FromData envRefused true sampleBuffer = [sampleResult] ∧
      sampleResult.VerificationError = none ∧
      sampleResult.verdict = .NotVerified := by
  decide

/-- C5, as the code has it: with `verify = true`, a candidate whose response
body cannot be read has no Result returned, and the Results returned are the
ones of the other matches, which are processed as if it were not there. -/
theorem C5_read_error_skips (env : Env) (data c : Bytes) (e : String)
    (hx : env.exchange c = .readError e) :
    (∀ r ∈ FromData env true data, r.Raw ≠ c) ∧
      FromData env true data =
        CleanResults (loopResults env true
          ((FindAllStringSubmatch (keyPat env.near env.greedy) data).filter
            (fun m => decide (candidate m ≠ c)))) := by
  constructor
  · intro r hr he
    have h2 := (mem_FromData hr).2
    rw [he] at h2
    simp [process, hx] at h2
  · unfold FromData loopResults
    congr 1
    rw [List.filterMap_filter]
    apply List.filterMap_congr
    intro m _
    by_cases he : candidate m = c
    · by_cases h2 : m.length = 2
      · simp [he, loopBody, h2, process, hx]
      · simp [he, loopBody, h2]
    · simp [he]

theorem C5_witness :
    envReadFail.exchange sampleToken = .readError "unexpected EOF" ∧
      (∀ r ∈ FromData envReadFail true sampleBuffer, r.Raw ≠ sampleToken) ∧
      FromData envReadFail true sampleBuffer =
        CleanResults (loopResults envReadFail true
          ((FindAllStringSubmatch (keyPat envReadFail.near envReadFail.greedy)
              sampleBuffer).filter
            (fun m => decide (candidate m ≠ sampleToken)))) :=
  ⟨rfl, C5_read_error_skips envReadFail sampleBuffer sampleToken "unexpected EOF" rfl⟩

/-- C5 fails as stated: on the same buffer a read failure returns no Result,
where a transport failure returns one. -/
theorem C5_counterexample :
    envReadFail.exchange sampleToken = .readError "unexpected EOF" ∧
      envRefused.exchange sampleToken = .transportError "connection refused" ∧
      FromData envReadFail true sampleBuffer = [] ∧
      FromData envRefused true sampleBuffer = [sampleResult] := by
  decide


theorem process_screen {env : Env} {verify : Bool} {c c1 : Bytes} :
    Event.screen c ∈ (process env verify c1).2 ↔
      c1 = c ∧ verify = true ∧ ∃ b, env.exchange c = .body b ∧
        Contains b (ascii "total") = false := by
  cases verify with
  | false => simp [process]
  | true =>
    constructor
    · intro h
      unfold process at h
      simp only [if_true] at h
      split at h
      · simp at h
      · simp at h
      · simp at h
      · rename_i b hb
        have hc : c = c1 ∧ Contains b (ascii "total") = false := by
          split_ifs at h with h1 h2 <;> simp at h <;> exact ⟨h, by simpa using h1⟩
        obtain ⟨rfl, ht⟩ := hc
        exact ⟨rfl, rfl, b, hb, ht⟩
    · rintro ⟨rfl, _, b, hb, ht⟩
      simp only [process, hb, ht, if_true]
      split_ifs <;> simp_all

/-- C6, as the code has it: the screen is run exactly on the candidates whose
response body was read and does not hold the marker, which needs
`verify = true`.  So a Result returned with `Verified = false` and a `Raw` the
screen flags is one for which verification was not requested or the call
failed at the transport level. -/
theorem C6_screen_only_after_read (env : Env) (verify : Bool) (data : Bytes) :
    (∀ r ∈ FromData env verify data, r.Verified = false →
        env.IsKnownFalsePositive r.Raw = true →
        verify = false ∨ ∃ e, env.exchange r.Raw = .transportError e) ∧
      (∀ c, Event.screen c ∈ FromDataEvents env verify data ↔
        verify = true ∧ c ∈ candidates env data ∧
          ∃ b, env.exchange c = .body b ∧ Contains b (ascii "total") = false) := by
  constructor
  · intro r hr hv hfp
    have h2 := (mem_FromData hr).2
    cases verify with
    | false => exact Or.inl rfl
    | true =>
      right
      unfold process at h2
      simp only [if_true] at h2
      split at h2
      · simp at h2
      · rename_i e he; exact ⟨e, he⟩
      · simp at h2
      · split_ifs at h2 with h3
        simp at h2
        rw [← h2] at hv
        simp at hv
  · intro c
    rw [FromDataEvents_eq]
    constructor
    · intro hmem
      obtain ⟨l, hl, hin⟩ := List.mem_flatten.1 hmem
      obtain ⟨c1, hc1, rfl⟩ := List.mem_map.1 hl
      obtain ⟨rfl, hv, hb⟩ := process_screen.1 hin
      exact ⟨hv, hc1, hb⟩
    · rintro ⟨hv, hc, hb⟩
      exact List.mem_flatten.2 ⟨_, List.mem_map.2 ⟨c, hc, rfl⟩,
        process_screen.2 ⟨rfl, hv, hb⟩⟩

/-- C6 fails as stated: without verification, and again when the endpoint
cannot be reached, the Result of a token the screen flags is returned with
`Verified = false`, and the screen was never run. -/
theorem C6_counterexample :
    envRefused.IsKnownFalsePositive sampleResult.Raw = true ∧
      sampleResult.Verified = false ∧
      FromData envRefused false sampleBuffer = [sampleResult] ∧
      FromDataEvents envRefused false sampleBuffer = [] ∧
      FromData envRefused true sampleBuffer = [sampleResult] ∧
      FromDataEvents envRefused true sampleBuffer = [.httpDo sampleToken] := by
  decide

/-- C7: the Results returned are the first-occurrence deduplication by `Raw`
of the Results the loop builds: a sublist of them in which no `Raw` occurs
twice, which holds every `Raw` the loop built, each through the first Result
the loop built with it. -/
theorem C7_first_occurrence_dedup (env : Env) (verify : Bool) (data : Bytes) :
    (FromData env verify data).Sublist
        (loopResults env verify (FindAllStringSubmatch (keyPat env.near env.greedy) data)) ∧
      ((FromData env verify data).map Result.Raw).Nodup ∧
      (∀ raw, raw ∈ (FromData env verify data).map Result.Raw ↔
        raw ∈ (loopResults env verify
          (FindAllStringSubmatch (keyPat env.near env.greedy) data)).map Result.Raw) ∧
      (∀ r ∈ FromData env verify data,
        (loopResults env verify
          (FindAllStringSubmatch (keyPat env.near env.greedy) data)).find?
            (fun x => decide (x.Raw = r.Raw)) = some r) := by
  refine ⟨cleanAux_sublist _ _, cleanAux_nodup _ _, ?_, ?_⟩
  · intro raw
    constructor
    · intro h
      obtain ⟨r, hr, he⟩ := List.mem_map.1 h
      exact List.mem_map.2 ⟨r, mem_CleanResults hr, he⟩
    · intro h
      obtain ⟨r, hr, he⟩ := List.mem_map.1 h
      obtain ⟨r1, hr1, he1⟩ := CleanResults_cover hr
      exact List.mem_map.2 ⟨r1, hr1, he1.trans he⟩
  · intro r hr
    exact cleanAux_first _ _ _ hr

/-- The same token twice in a buffer gives one Result. -/
theorem same_token_twice_one_result :
    FromData envRefused false (sampleBuffer ++ sampleBuffer) = [sampleResult] := by
  decide

/-- Two different tokens in a buffer give two Results, in the order of their
matches. -/
theorem two_tokens_two_results :
    FromData envRefused false (sampleBuffer ++ ascii "appointedd: " ++ otherToken) =
      [sampleResult, { DetectorType := .Appointedd, Raw := otherToken }] := by
  decide

/-- C8: a buffer that holds none of the keywords of `Keywords`, compared
without regard to case, gives no Result and no event, whatever `verify` is. -/
theorem C8_no_keyword_no_result (env : Env) (verify : Bool) (data : Bytes)
    (h : ∀ kw ∈ Keywords, ¬ containsFold data kw) :
    FromData env verify data = [] ∧ FromDataEvents env verify data = [] := by
  have hnil : FindAllStringSubmatch (keyPat env.near env.greedy) data = [] := by
    apply List.eq_nil_iff_forall_not_mem.2
    intro m hm
    obtain ⟨pre, kw, gap, post, tok, hd, _, hkw, _, _⟩ := mem_FindAll_keyPat hm
    apply h (ascii "appointedd") (by simp [Keywords])
    unfold containsFold
    have hl : (ascii "appointedd").map lowerASCII = ascii "appointedd" := by decide
    rw [hl, hd, ← hkw]
    refine ⟨pre.map lowerASCII, (gap ++ bytesOf tok ++ post).map lowerASCII, ?_⟩
    simp [List.append_assoc]
  simp [FromData, FromDataEvents, hnil, loopResults, CleanResults, cleanAux]

theorem C8_witness :
    (∀ kw ∈ Keywords, ¬ containsFold (ascii "API_KEY = " ++ sampleToken) kw) ∧
      FromData envRefused true (ascii "API_KEY = " ++ sampleToken) = [] ∧
      FromDataEvents envRefused true (ascii "API_KEY = " ++ sampleToken) = [] :=
  have h : ∀ kw ∈ Keywords, ¬ containsFold (ascii "API_KEY = " ++ sampleToken) kw := by
    decide
  ⟨h, C8_no_keyword_no_result envRefused true _ h⟩

theorem isTokenPiece_of_tokenRune {x : Rune} (h : TokenRune x) :
    isTokenPiece x.bytes = true := by
  rcases h with ⟨h, hb⟩ | rfl | rfl
  · rw [hb]; simp [isTokenPiece, h]
  · decide
  · decide

theorem tokenRune_ascii {x : Rune} (h : TokenRune x) (hb : ∀ b ∈ x.bytes, b < 128) :
    tokenClass x.r = true ∧ x.bytes = [x.r] := by
  rcases h with h | rfl | rfl
  · exact h
  · exact absurd (hb 0xC5 (by decide)) (by decide)
  · exact absurd (hb 0xE2 (by decide)) (by decide)

/-- C9, as the code has it: every Result returned, for every buffer, has a
`Raw` made of exactly 88 code points, each a byte of `[a-zA-Z0-9=+]` or the
UTF-8 encoding of U+017F or U+212A, which the class matches because the flag
`i` of the prefix is still in force; a `Raw` of ASCII bytes only is exactly 88
bytes of the class.  `Raw` is group 1 of a match of `keyPat` in the buffer,
the end of that match with the context before it stripped, and the trim at
extraction left it as it was. -/
theorem C9_raw_is_folded_token (env : Env) (verify : Bool) (data : Bytes) (r : Result)
    (h : r ∈ FromData env verify data) :
    (∃ pieces : List Bytes, r.Raw = pieces.flatten ∧ pieces.length = 88 ∧
        ∀ p ∈ pieces, isTokenPiece p = true) ∧
      ((∀ b ∈ r.Raw, b < 128) → r.Raw.length = 88 ∧ ∀ b ∈ r.Raw, tokenClass b = true) ∧
      ∃ m ∈ FindAllStringSubmatch (keyPat env.near env.greedy) data,
        m.length = 2 ∧ m.getD 1 [] = r.Raw ∧ TrimSpace (m.getD 1 []) = m.getD 1 [] ∧
        (∃ ctx, m.getD 0 [] = ctx ++ r.Raw) ∧ m.getD 0 [] <:+: data := by
  obtain ⟨hc, _⟩ := mem_FromData h
  obtain ⟨m, hm, he⟩ := List.mem_map.1 hc
  obtain ⟨pre, kw, gap, post, tok, hd, rfl, _, hlen, hall⟩ := mem_FindAll_keyPat hm
  have hne : tok ≠ [] := by
    intro e; rw [e] at hlen; simp at hlen
  have ht := TrimSpace_token hne hall
  have hraw : r.Raw = bytesOf tok := by rw [← he]; simpa [candidate] using ht
  rw [hraw]
  refine ⟨⟨tok.map Rune.bytes, rfl, by simpa using hlen, ?_⟩, ?_,
    _, hm, rfl, rfl, by simpa using ht, ⟨kw ++ gap, by simp⟩, ?_⟩
  · intro p hp
    obtain ⟨x, hx, rfl⟩ := List.mem_map.1 hp
    exact isTokenPiece_of_tokenRune (hall x hx)
  · intro hb
    have hasc : ∀ x ∈ tok, tokenClass x.r = true ∧ x.bytes = [x.r] := by
      intro x hx
      apply tokenRune_ascii (hall x hx)
      intro b hbx
      apply hb
      simp only [bytesOf, List.mem_flatten, List.mem_map]
      exact ⟨x.bytes, ⟨x, hx, rfl⟩, hbx⟩
    have hbytes : bytesOf tok = tok.map Rune.r :=
      bytesOf_ascii tok (fun x hx => (hasc x hx).2)
    rw [hbytes]
    refine ⟨by simpa using hlen, ?_⟩
    intro b hbm
    obtain ⟨x, hx, rfl⟩ := List.mem_map.1 hbm
    exact (hasc x hx).1
  · exact ⟨pre, post, by rw [hd]; simp [List.append_assoc]⟩

theorem C9_witness :
    sampleResult ∈ FromData envRefused true sampleBuffer ∧
      (∃ pieces : List Bytes, sampleResult.Raw = pieces.flatten ∧ pieces.length = 88 ∧
        ∀ p ∈ pieces, isTokenPiece p = true) ∧
      ((∀ b ∈ sampleResult.Raw, b < 128) →
        sampleResult.Raw.length = 88 ∧ ∀ b ∈ sampleResult.Raw, tokenClass b = true) ∧
      ∃ m ∈ FindAllStringSubmatch (keyPat envRefused.near envRefused.greedy) sampleBuffer,
        m.length = 2 ∧ m.getD 1 [] = sampleResult.Raw ∧
        TrimSpace (m.getD 1 []) = m.getD 1 [] ∧
        (∃ ctx, m.getD 0 [] = ctx ++ sampleResult.Raw) ∧ m.getD 0 [] <:+: sampleBuffer :=
  have h : sampleResult ∈ FromData envRefused true sampleBuffer := by decide
  ⟨h, C9_raw_is_folded_token envRefused true sampleBuffer sampleResult h⟩

/-- C9 fails as stated: a token that ends in the Kelvin sign is returned with
a `Raw` of 90 bytes, one that starts with the long s with a `Raw` of 89 bytes,
and neither holds bytes of `[a-zA-Z0-9=+]` only. -/
theorem C9_counterexample :
    FromData envRefused false kelvinBuffer =
        [{ DetectorType := .Appointedd, Raw := kelvinToken }] ∧
      kelvinToken.length = 90 ∧ kelvinToken.all tokenClass = false ∧
      FromData envRefused false longSBuffer =
        [{ DetectorType := .Appointedd, Raw := longSToken }] ∧
      longSToken.length = 89 ∧ longSToken.all tokenClass = false := by
  decide

end Appointedd

namespace Permissions

/-! ## The claim about the permissions generator -/

theorem lookup_of_mem {α β : Type} [BEq α] [LawfulBEq α] :
    ∀ (l : List (α × β)) (k : α) (v : β),
      (l.map Prod.fst).Nodup → (k, v) ∈ l → l.lookup k = some v := by
  intro l
  induction l with
  | nil => intro k v _ h; simp at h
  | cons x t ih =>
    intro k v hn h
    obtain ⟨k1, v1⟩ := x
    rw [List.map_cons, List.nodup_cons] at hn
    rcases List.mem_cons.1 h with he | ht
    · simp only [Prod.mk.injEq] at he
      obtain ⟨rfl, rfl⟩ := he
      simp [List.lookup]
    · have hne : k ≠ k1 := by
        intro he
        exact hn.1 (List.mem_map.2 ⟨(k, v), ht, he⟩)
      have hb : (k == k1) = false := by simpa using hne
      simp only [List.lookup, hb]
      exact ih k v hn.2 ht

theorem lookup_none {α β : Type} [BEq α] [LawfulBEq α] :
    ∀ (l : List (α × β)) (k : α), k ∉ l.map Prod.fst → l.lookup k = none := by
  intro l
  induction l with
  | nil => intro k _; rfl
  | cons x t ih =>
    intro k h
    obtain ⟨k1, v1⟩ := x
    simp only [List.map_cons, List.mem_cons, not_or] at h
    have hb : (k == k1) = false := by simpa using h.1
    simp only [List.lookup, hb]
    exact ih k h.2

theorem enum_map_snd_fun {α β : Type} (f : α → β) (l : List α) :
    l.enum.map (fun ip => f ip.2) = l.map f := by
  rw [show (fun ip : Nat × α => f ip.2) = f ∘ Prod.snd from rfl, ← List.map_map,
    List.enum_map_snd]

theorem generate_consts (title : String → String) (perms : List String) (pkg : String) :
    (generate title ⟨perms, pkg⟩).consts = "Invalid" :: perms.map (ToCamelCase title) := by
  simp [generate, enum_map_snd_fun]

theorem resolve_Invalid (title : String → String) (perms : List String) (pkg : String) :
    resolve (generate title ⟨perms, pkg⟩) "Invalid" = 0 := by
  simp [resolve, constEnv, generate_consts, List.enum_cons, List.lookup]

theorem resolve_name (title : String → String) (perms : List String) (pkg : String)
    (hn : (perms.map (ToCamelCase title)).Nodup)
    (hinv : "Invalid" ∉ perms.map (ToCamelCase title))
    {j : Nat} {q : String} (hj : perms[j]? = some q) :
    resolve (generate title ⟨perms, pkg⟩) (ToCamelCase title q) = j + 1 := by
  have hl : (constEnv (generate title ⟨perms, pkg⟩)).lookup (ToCamelCase title q) =
      some (j + 1) := by
    apply lookup_of_mem
    · have : (constEnv (generate title ⟨perms, pkg⟩)).map Prod.fst =
          "Invalid" :: perms.map (ToCamelCase title) := by
        unfold constEnv
        rw [List.map_map, ← generate_consts title perms pkg]
        exact List.enum_map_snd _
      rw [this]
      exact List.nodup_cons.2 ⟨hinv, hn⟩
    · unfold constEnv
      refine List.mem_map.2 ⟨(j + 1, ToCamelCase title q), ?_, rfl⟩
      rw [List.mk_mem_enum_iff_getElem?, generate_consts]
      simp [hj]
  simp [resolve, hl]

theorem tablesOf_generate (title : String → String) (perms : List String) (pkg : String)
    (hn : (perms.map (ToCamelCase title)).Nodup)
    (hinv : "Invalid" ∉ perms.map (ToCamelCase title)) :
    tablesOf (generate title ⟨perms, pkg⟩) =
      { PermissionStrings := perms.enum.map (fun ip => (ip.1 + 1, ip.2))
        StringToPermission := perms.enum.map (fun ip => (ip.2, ip.1 + 1))
        PermissionIDs := perms.enum.map (fun ip => (ip.1 + 1, ip.1 + 1))
        IdToPermission := perms.enum.map (fun ip => (ip.1 + 1, ip.1 + 1)) } := by
  have hr : ∀ ip ∈ perms.enum,
      resolve (generate title ⟨perms, pkg⟩) (ToCamelCase title ip.2) = ip.1 + 1 := by
    intro ip hip
    exact resolve_name title perms pkg hn hinv (List.mem_enum_iff_getElem?.1 hip)
  have h1 : (generate title ⟨perms, pkg⟩).PermissionStrings =
      perms.enum.map (fun ip => (ToCamelCase title ip.2, ip.2)) := rfl
  have h2 : (generate title ⟨perms, pkg⟩).StringToPermission =
      perms.enum.map (fun ip => (ip.2, ToCamelCase title ip.2)) := rfl
  have h3 : (generate title ⟨perms, pkg⟩).PermissionIDs =
      perms.enum.map (fun ip => (ToCamelCase title ip.2, ip.1 + 1)) := rfl
  have h4 : (generate title ⟨perms, pkg⟩).IdToPermission =
      perms.enum.map (fun ip => (ip.1 + 1, ToCamelCase title ip.2)) := rfl
  unfold tablesOf
  rw [h1, h2, h3, h4]
  simp only [List.map_map]
  congr 1 <;>
  · apply List.map_congr_left
    intro ip hip
    simp only [Function.comp_apply, hr ip hip]

theorem succ_keys_nodup (perms : List String) :
    (perms.enum.map (fun ip => ip.1 + 1)).Nodup := by
  rw [show (fun ip : Nat × String => ip.1 + 1) = (fun n => n + 1) ∘ Prod.fst from rfl,
    ← List.map_map, List.enum_map_fst]
  exact (List.nodup_range _).map (fun a b h => Nat.succ.inj h)

theorem compiles_generate (title : String → String) (perms : List String) (pkg : String)
    (hpkg : isIdentifier pkg = true)
    (hp : perms.Nodup) (hn : (perms.map (ToCamelCase title)).Nodup)
    (hid : ∀ q ∈ perms, isIdentifier (ToCamelCase title q) = true ∧
      ToCamelCase title q ∉ "Invalid" :: templateNames ∧ isPlainLiteral q = true) :
    compiles (generate title ⟨perms, pkg⟩) = true := by
  have hinv : "Invalid" ∉ perms.map (ToCamelCase title) := by
    intro h
    obtain ⟨q, hq, he⟩ := List.mem_map.1 h
    exact (hid q hq).2.1 (by rw [he]; exact List.mem_cons_self _ _)
  have hmem : ∀ ip ∈ perms.enum, ToCamelCase title ip.2 ∈
      (generate title ⟨perms, pkg⟩).consts := by
    intro ip hip
    rw [generate_consts]
    exact List.mem_cons_of_mem _ (List.mem_map.2 ⟨ip.2, List.snd_mem_of_mem_enum hip, rfl⟩)
  unfold compiles
  rw [decide_eq_true_iff, tablesOf_generate title perms pkg hn hinv]
  refine ⟨hpkg, ?_, ?_, ?_, ?_, ?_, ?_, ?_, ?_, ?_, ?_⟩
  · rw [generate_consts, List.nodup_append]
    refine ⟨by decide, List.nodup_cons.2 ⟨hinv, hn⟩, ?_⟩
    intro a ha hb
    rcases List.mem_cons.1 hb with rfl | hb
    · revert ha; decide
    · obtain ⟨q, hq, rfl⟩ := List.mem_map.1 hb
      exact (hid q hq).2.1 (List.mem_cons_of_mem _ ha)
  · rw [generate_consts]
    intro n hn1
    rcases List.mem_cons.1 hn1 with rfl | hn1
    · decide
    · obtain ⟨q, hq, rfl⟩ := List.mem_map.1 hn1
      exact (hid q hq).1
  · intro kv hkv
    obtain ⟨ip, hip, rfl⟩ := List.mem_map.1 hkv
    exact ⟨hmem ip hip, (hid ip.2 (List.snd_mem_of_mem_enum hip)).2.2⟩
  · intro kv hkv
    obtain ⟨ip, hip, rfl⟩ := List.mem_map.1 hkv
    exact ⟨hmem ip hip, (hid ip.2 (List.snd_mem_of_mem_enum hip)).2.2⟩
  · intro kv hkv
    obtain ⟨ip, hip, rfl⟩ := List.mem_map.1 hkv
    exact hmem ip hip
  · intro kv hkv
    obtain ⟨ip, hip, rfl⟩ := List.mem_map.1 hkv
    exact hmem ip hip
  · simpa [List.map_map, Function.comp_def] using succ_keys_nodup perms
  · simpa [List.map_map, Function.comp_def, List.enum_map_snd] using hp
  · simpa [List.map_map, Function.comp_def] using succ_keys_nodup perms
  · simpa [List.map_map, Function.comp_def] using succ_keys_nodup perms

/-- C10, as the generated code has it: for a package name that is an
identifier and pairwise-distinct permission strings that stand for themselves
between double quotes, whose `ToCamelCase` names are pairwise-distinct
identifiers and none of the names the template uses itself (`Invalid` among
them), the generated file compiles; the permission `p` at
index `i` has the enum value `i + 1` and the ID `i + 1`; `ToString` and
`PermissionFromString`, `ToID` and `PermissionFromID` invert each other on
it; and `Invalid` is the value 0, a key of no table and a value of none, so
`ToString` and `ToID` fail on it with "invalid permission". -/
theorem C10_tables_bidirectional (title : String → String) (perms : List String)
    (pkg : String) (i : Nat) (p : String) (hpkg : isIdentifier pkg = true)
    (hp : perms.Nodup) (hn : (perms.map (ToCamelCase title)).Nodup)
    (hid : ∀ q ∈ perms, isIdentifier (ToCamelCase title q) = true ∧
      ToCamelCase title q ∉ "Invalid" :: templateNames ∧ isPlainLiteral q = true)
    (hi : perms[i]? = some p) :
    ∃ t, compile (generate title ⟨perms, pkg⟩) = some t ∧
      resolve (generate title ⟨perms, pkg⟩) (ToCamelCase title p) = i + 1 ∧
      ToString t (i + 1) = .ok p ∧ PermissionFromString t p = .ok (i + 1) ∧
      ToID t (i + 1) = .ok (i + 1) ∧ PermissionFromID t (i + 1) = .ok (i + 1) ∧
      resolve (generate title ⟨perms, pkg⟩) "Invalid" = 0 ∧
      ToString t 0 = .error "invalid permission" ∧
      ToID t 0 = .error "invalid permission" ∧
      (∀ kv ∈ t.StringToPermission, kv.2 ≠ 0) ∧
      (∀ kv ∈ t.IdToPermission, kv.1 ≠ 0 ∧ kv.2 ≠ 0) := by
  have hinv : "Invalid" ∉ perms.map (ToCamelCase title) := by
    intro h
    obtain ⟨q, hq, he⟩ := List.mem_map.1 h
    exact (hid q hq).2.1 (by rw [he]; exact List.mem_cons_self _ _)
  have hc := compiles_generate title perms pkg hpkg hp hn hid
  have ht := tablesOf_generate title perms pkg hn hinv
  have hmem : (i, p) ∈ perms.enum := List.mk_mem_enum_iff_getElem?.2 hi
  have hk := succ_keys_nodup perms
  refine ⟨tablesOf (generate title ⟨perms, pkg⟩), by simp [compile, hc],
    resolve_name title perms pkg hn hinv hi,
    ?_, ?_, ?_, ?_, resolve_Invalid title perms pkg, ?_, ?_, ?_, ?_⟩
  · have : (tablesOf (generate title ⟨perms, pkg⟩)).PermissionStrings.lookup (i + 1) =
        some p := by
      rw [ht]
      apply lookup_of_mem
      · simpa [List.map_map, Function.comp_def] using hk
      · exact List.mem_map.2 ⟨(i, p), hmem, rfl⟩
    simp [ToString, this]
  · have : (tablesOf (generate title ⟨perms, pkg⟩)).StringToPermission.lookup p =
        some (i + 1) := by
      rw [ht]
      apply lookup_of_mem
      · simpa [List.map_map, Function.comp_def, List.enum_map_snd] using hp
      · exact List.mem_map.2 ⟨(i, p), hmem, rfl⟩
    simp [PermissionFromString, this]
  · have : (tablesOf (generate title ⟨perms, pkg⟩)).PermissionIDs.lookup (i + 1) =
        some (i + 1) := by
      rw [ht]
      apply lookup_of_mem
      · simpa [List.map_map, Function.comp_def] using hk
      · exact List.mem_map.2 ⟨(i, p), hmem, rfl⟩
    simp [ToID, this]
  · have : (tablesOf (generate title ⟨perms, pkg⟩)).IdToPermission.lookup (i + 1) =
        some (i + 1) := by
      rw [ht]
      apply lookup_of_mem
      · simpa [List.map_map, Function.comp_def] using hk
      · exact List.mem_map.2 ⟨(i, p), hmem, rfl⟩
    simp [PermissionFromID, this]
  · have : (tablesOf (generate title ⟨perms, pkg⟩)).PermissionStrings.lookup 0 = none := by
      rw [ht]
      apply lookup_none
      simp
    simp [ToString, this]
  · have : (tablesOf (generate title ⟨perms, pkg⟩)).PermissionIDs.lookup 0 = none := by
      rw [ht]
      apply lookup_none
      simp
    simp [ToID, this]
  · rw [ht]
    intro kv hkv
    obtain ⟨ip, _, rfl⟩ := List.mem_map.1 hkv
    simp
  · rw [ht]
    intro kv hkv
    obtain ⟨ip, _, rfl⟩ := List.mem_map.1 hkv
    simp

theorem C10_witness :
    ∃ t, compile (generate titleASCII ⟨["admin", "repo:read_write"], "github"⟩) = some t ∧
      resolve (generate titleASCII ⟨["admin", "repo:read_write"], "github"⟩)
        (ToCamelCase titleASCII "repo:read_write") = 1 + 1 ∧
      ToString t (1 + 1) = .ok "repo:read_write" ∧
      PermissionFromString t "repo:read_write" = .ok (1 + 1) ∧
      ToID t (1 + 1) = .ok (1 + 1) ∧ PermissionFromID t (1 + 1) = .ok (1 + 1) ∧
      resolve (generate titleASCII ⟨["admin", "repo:read_write"], "github"⟩) "Invalid" = 0 ∧
      ToString t 0 = .error "invalid permission" ∧
      ToID t 0 = .error "invalid permission" ∧
      (∀ kv ∈ t.StringToPermission, kv.2 ≠ 0) ∧
      (∀ kv ∈ t.IdToPermission, kv.1 ≠ 0 ∧ kv.2 ≠ 0) :=
  C10_tables_bidirectional titleASCII ["admin", "repo:read_write"] "github" 1
    "repo:read_write" (by decide) (by decide) (by decide) (by decide) (by decide)

/-- C10 fails as stated: the one permission `invalid` is a list of
pairwise-distinct strings with pairwise-distinct names; its constant is
declared `Invalid`, as the constant of value 0 is, the generated file does not
compile, and `Invalid` is written as a key of `PermissionStrings`. -/
theorem C10_counterexample :
    isIdentifier "github" = true ∧
      ["invalid"].Nodup ∧ (["invalid"].map (ToCamelCase titleASCII)).Nodup ∧
      (generate titleASCII ⟨["invalid"], "github"⟩).consts = ["Invalid", "Invalid"] ∧
      (generate titleASCII ⟨["invalid"], "github"⟩).PermissionStrings =
        [("Invalid", "invalid")] ∧
      compile (generate titleASCII ⟨["invalid"], "github"⟩) = none := by
  decide

end Permissions
